import Mathlib

/-!
Verification of the dynamic array container `mdspp::List` from
`src/Sources/List.hpp`, shallowly embedded in Lean 4.

The container state is a pair of the live element sequence (`elems`,
mirroring the slots `data_[0 .. size_)`) and the allocated capacity
(`capacity_`).  The C++ `int` size and capacity are modelled as `Nat`
(they are always non-negative in every reachable state), index
arguments as `Int` (they may be negative, Python style).  Fallible
operations return `Except Err`, where `Err` enumerates the error kinds
of the design.  The bounds / empty / full validators live in
`common/check_bounds.hpp` etc., which are outside `src/`; they are
modelled from the spec (section 6) and marked as such.
-/

/-- The error kinds of the design (spec section 7). -/
inductive Err : Type
  | indexOutOfRange
  | emptyContainer
  | capacityExceeded
  | invalidArgument
deriving DecidableEq, Repr

/-- The container: live elements `data_[0 .. size_)` plus the allocated
capacity `capacity_`.  `size_` is recovered as `elems.length`. -/
structure CppList (T : Type) : Type where
  elems : List T
  capacity : Nat
deriving DecidableEq, Repr

/-- `INIT_CAPACITY = 4` from `List.hpp`. -/
def INIT_CAPACITY : Nat := 4

/-- `INT_MAX`, the largest representable `int` value. -/
def INT_MAX : Nat := 2147483647

/-- `MAX_CAPACITY = INT_MAX - 1` from `List.hpp`. -/
def MAX_CAPACITY : Nat := INT_MAX - 1

namespace CppList

variable {T : Type} [DecidableEq T]

/-- `size()`: the number of elements. -/
def size (l : CppList T) : Nat := l.elems.length

/-- `is_empty()`. -/
def isEmpty (l : CppList T) : Bool := l.size == 0

/-- Modelled from the spec: the bounds validator of `common/check_bounds.hpp`
(not under `src/`): given `(index, lower_inclusive, upper_exclusive)`, fails
with IndexOutOfRange if the index is outside the range; otherwise a no-op. -/
def checkBounds (index lower upper : Int) : Except Err Unit :=
  if index < lower ∨ upper ≤ index then .error .indexOutOfRange else .ok ()

/-- Modelled from the spec: the empty validator of `common/check_empty.hpp`
(not under `src/`): fails with EmptyContainer when the size is zero. -/
def checkEmpty (sz : Nat) : Except Err Unit :=
  if sz = 0 then .error .emptyContainer else .ok ()

/-- Modelled from the spec: the full validator of `common/check_full.hpp`
(not under `src/`): fails with CapacityExceeded when the size has reached
the given maximum (`length == MAX_CAPACITY` in the spec, section 4.2). -/
def checkFull (sz maxCap : Nat) : Except Err Unit :=
  if sz = maxCap then .error .capacityExceeded else .ok ()

/-- `expand_capacity()`: capacity doubles until `MAX_CAPACITY`
(`capacity_ = (capacity_ < MAX_CAPACITY / 2) ? capacity_ * 2 : MAX_CAPACITY`). -/
def expandCapacity (c : Nat) : Nat :=
  if c < MAX_CAPACITY / 2 then c * 2 else MAX_CAPACITY

/-- The default constructor `List()`: empty, capacity `INIT_CAPACITY`. -/
def emptyCpp (T : Type) : CppList T := ⟨[], INIT_CAPACITY⟩

/-- The initializer-list constructor: `capacity_ = size_ >= INIT_CAPACITY ?
size_ : INIT_CAPACITY`, elements copied. -/
def fromList (il : List T) : CppList T :=
  ⟨il, if il.length ≥ INIT_CAPACITY then il.length else INIT_CAPACITY⟩

/-- The copy constructor: deep copy of size, capacity and the live elements. -/
def copyCtor (that : CppList T) : CppList T := ⟨that.elems, that.capacity⟩

/-- The move constructor: the new object takes the fields, the source is
reset to a fresh empty container.  Returns (new object, source afterwards). -/
def moveCtor (that : CppList T) : CppList T × CppList T :=
  (⟨that.elems, that.capacity⟩, ⟨[], INIT_CAPACITY⟩)

/-- Copy assignment.  `sameObj` models the pointer test `this == &that`;
when it holds (so `other` is the very object being assigned) the body is
skipped, otherwise size, capacity and elements are copied. -/
def assignCopy (self other : CppList T) (sameObj : Bool) : CppList T :=
  if sameObj then self else ⟨other.elems, other.capacity⟩

/-- Move assignment: as `assignCopy` but the source is reset to a fresh
empty container.  Returns (assigned object, source afterwards). -/
def assignMove (self other : CppList T) (sameObj : Bool) :
    CppList T × CppList T :=
  if sameObj then (self, self)
  else (⟨other.elems, other.capacity⟩, ⟨[], INIT_CAPACITY⟩)

/-- `swap(that)`: exchanges size, capacity and data of the two lists. -/
def swapCpp (a b : CppList T) : CppList T × CppList T :=
  (⟨b.elems, b.capacity⟩, ⟨a.elems, a.capacity⟩)

/-- `insert(index, element)`: check full, check bounds on
`[-size, size + 1)`, expand capacity if `size_ == capacity_`, resolve a
negative index, shift `[index, size)` one slot right and place the element. -/
def insertCpp (l : CppList T) (index : Int) (e : T) : Except Err (CppList T) :=
  match checkFull l.size MAX_CAPACITY with
  | .error er => .error er
  | .ok _ =>
    match checkBounds index (-(l.size : Int)) ((l.size : Int) + 1) with
    | .error er => .error er
    | .ok _ =>
      let cap := if l.size = l.capacity then expandCapacity l.capacity else l.capacity
      let r := (if 0 ≤ index then index else index + (l.size : Int)).toNat
      .ok ⟨l.elems.take r ++ e :: l.elems.drop r, cap⟩

/-- `remove(index)`: check empty, check bounds on `[-size, size)`, resolve a
negative index, capture the element, shift `[index+1, size)` one slot left.
Returns the new state and the removed element. -/
def removeCpp (l : CppList T) (index : Int) : Except Err (CppList T × T) :=
  match checkEmpty l.size with
  | .error er => .error er
  | .ok _ =>
    match checkBounds index (-(l.size : Int)) (l.size : Int) with
    | .error er => .error er
    | .ok _ =>
      let r := (if 0 ≤ index then index else index + (l.size : Int)).toNat
      match l.elems.get? r with
      | some x => .ok (⟨l.elems.take r ++ l.elems.drop (r + 1), l.capacity⟩, x)
      | none => .error .indexOutOfRange

/-- `operator+=(const T&)`: `insert(size_, element)`. -/
def appendElem (l : CppList T) (e : T) : Except Err (CppList T) :=
  insertCpp l (l.size : Int) e

/-- The element-appending loop of `operator+=(const List&)` and
`operator*=`: append each element of `xs` in order via `operator+=(const T&)`. -/
def appendAll (l : CppList T) : List T → Except Err (CppList T)
  | [] => .ok l
  | x :: xs =>
    match appendElem l x with
    | .ok l2 => appendAll l2 xs
    | .error er => .error er

/-- `operator+=(const List&)`: if `this == &list` (`aliased`), a full value
copy `saved_list` is taken first and its elements are appended; otherwise the
elements of the other list are appended directly. -/
def concatAssign (self other : CppList T) (aliased : Bool) :
    Except Err (CppList T) :=
  if aliased then appendAll self self.elems
  else appendAll self other.elems

/-- `count(element)`: number of equality matches over the live elements. -/
def countCpp (l : CppList T) (e : T) : Nat := l.elems.count e

/-- The scan loop of `find`: `for (int i = start; i < stop; ++i)` with the
element reads `data_[i]`.  The fuel is the exact number of remaining loop
iterations, `(stop - i).toNat`.  A read at a negative `i` is outside the
buffer (undefined behaviour in the C++ source) and is modelled as `none`;
the `get?`-misses branch (`i` at or beyond `size_`) is unreachable because
`stop` has been clamped to `size_`. -/
def findLoop (elems : List T) (e : T) : Nat → Int → Option Int
  | 0, _ => some (-1)
  | fuel + 1, i =>
    if 0 ≤ i then
      match elems.get? i.toNat with
      | some x => if x = e then some i else findLoop elems e fuel (i + 1)
      | none => none
    else none

/-- `find(element, start, stop)`: clamp `stop` down to `size_`
(`stop = stop > size_ ? size_ : stop`), then scan from `start`. -/
def findCpp (l : CppList T) (e : T) (start stop : Int) : Option Int :=
  let stop2 := if stop > (l.size : Int) then (l.size : Int) else stop
  findLoop l.elems e (stop2 - start).toNat start

/-- `find` with its default arguments `start = 0`, `stop = MAX_CAPACITY + 1`. -/
def findDefault (l : CppList T) (e : T) : Option Int :=
  findCpp l e 0 ((MAX_CAPACITY : Int) + 1)

/-- `contains(element, start, stop)`: `find(element, start, stop) != -1`. -/
def containsCpp (l : CppList T) (e : T) (start stop : Int) : Option Bool :=
  match findCpp l e start stop with
  | some i => some (decide ¬i = -1)
  | none => none

/-- Keep the state produced by a successful `remove`, discarding the
returned element (`operator-=` ignores it); on an error — unreachable in
`operator-=`, whose found index is always valid — keep the old state. -/
def keepRemoved (l : CppList T) : Except Err (CppList T × T) → CppList T
  | .ok (l2, _) => l2
  | .error _ => l

/-- The continuation of `operator-=` on the result of `find`: remove at the
found index unless the element was absent (`-1`). -/
def subAssignGo (l : CppList T) : Option Int → CppList T
  | some idx =>
    if idx = -1 then l
    else keepRemoved l (removeCpp l idx)
  | none => l

/-- `operator-=(const T&)`: find the first occurrence (default search range)
and remove it if present; no-op when absent. -/
def subAssign (l : CppList T) (e : T) : CppList T :=
  subAssignGo l (findDefault l e)

/-- `clear()`: only when `size_ != 0`, reset the size to 0 and the capacity
to `INIT_CAPACITY` (otherwise the body is skipped). -/
def clearCpp (l : CppList T) : CppList T :=
  if l.size ≠ 0 then ⟨[], INIT_CAPACITY⟩ else l

/-- `reverse()`: two-pointer in-place reversal of the live elements. -/
def reverseCpp (l : CppList T) : CppList T := ⟨l.elems.reverse, l.capacity⟩

/-- `operator==`: equal sizes and elementwise-equal live elements; the
capacity does not take part in value equality. -/
def eqCpp (a b : CppList T) : Bool :=
  a.size == b.size && a.elems == b.elems

/-- The loop of `operator*=`: `for (i = 0; i < times; i++) list += *this;`.
The accumulator `list` is a distinct object, so the concatenation is the
non-aliased one. -/
def mulLoop (l : CppList T) : Nat → CppList T → Except Err (CppList T)
  | 0, acc => .ok acc
  | k + 1, acc =>
    match concatAssign acc l false with
    | .ok acc2 => mulLoop l k acc2
    | .error er => .error er

/-- `operator*=(int times)`: fail with InvalidArgument when `times < 0`,
otherwise build a fresh list by concatenating the receiver `times` times and
copy-assign it over the receiver (`*this = list`, never self-assignment). -/
def mulAssign (l : CppList T) (times : Int) : Except Err (CppList T) :=
  if times < 0 then .error .invalidArgument
  else
    match mulLoop l times.toNat (emptyCpp T) with
    | .ok acc => .ok (assignCopy l acc false)
    | .error er => .error er

/-- The nested loop of `uniquify()`: for each position `i`, while
`count(data_[i]) > 1`, remove one occurrence via `operator-=`.  Both loop
conditions re-read the current state, exactly as in the source.  The inner
guard (recursing only when the removal actually shrank the list) is what the
source achieves implicitly: whenever `count(data_[i]) > 1` the value is
present, its first occurrence is found and removed, so the guard holds for
every container a C++ program can build (`size_ ≤ MAX_CAPACITY`). -/
def uniquifyLoop (l : CppList T) (i : Nat) : CppList T :=
  if h : i < l.elems.length then
    if countCpp l (l.elems.get ⟨i, h⟩) > 1 then
      if hlen : (subAssign l (l.elems.get ⟨i, h⟩)).elems.length < l.elems.length then
        uniquifyLoop (subAssign l (l.elems.get ⟨i, h⟩)) i
      else l
    else uniquifyLoop l (i + 1)
  else l
termination_by 2 * l.elems.length - i
decreasing_by
  · omega
  · omega

/-- `uniquify()`: run the nested loop from position 0. -/
def uniquifyCpp (l : CppList T) : CppList T := uniquifyLoop l 0

/-- One bubble pass of `sort`: the inner loop
`for (j = 0; j < size_ - i - 1; j++)` performing `k` adjacent
comparisons `comparator(data_[j + 1], data_[j])` with swaps; returns the
new sequence and the `swapped` flag of the pass. -/
def bubblePass (cmp : T → T → Bool) : Nat → List T → List T × Bool
  | _, [] => ([], false)
  | 0, l => (l, false)
  | _ + 1, [a] => ([a], false)
  | k + 1, a :: b :: rest =>
    if cmp b a then
      let r := bubblePass cmp k (a :: rest)
      (b :: r.1, true)
    else
      let r := bubblePass cmp k (b :: rest)
      (a :: r.1, r.2)

/-- The outer loop of `sort`: pass `i` of `for (i = 0; i < size_ - 1; i++)`
performs `size_ - i - 1` comparisons; `n` counts the remaining passes, so the
current pass performs `n` comparisons, and the loop stops early when a pass
performed no swap. -/
def sortPasses (cmp : T → T → Bool) : Nat → List T → List T
  | 0, l => l
  | n + 1, l =>
    let p := bubblePass cmp (n + 1) l
    if p.2 then sortPasses cmp n p.1 else p.1

/-- `sort(comparator)` on the element sequence: `size_ - 1` bubble passes
with the early-exit flag. -/
def sortList (cmp : T → T → Bool) (l : List T) : List T :=
  sortPasses cmp (l.length - 1) l

/-- `sort(comparator)` on the container: the capacity is untouched. -/
def sortCpp (l : CppList T) (cmp : T → T → Bool) : CppList T :=
  ⟨sortList cmp l.elems, l.capacity⟩

/-- The copy loop of `slice`:
`for (i = start; (step > 0) ? (i < stop) : (i > stop); i += step) list += data_[i];`.
A read outside `[0, size_)` — impossible when called from `slice`, whose
bound checks confine the walk — is modelled as an IndexOutOfRange error, and
the `step = 0` branch is unreachable because `slice` rejects a zero step. -/
def sliceLoop (elems : List T) (stop step : Int) (i : Int) (acc : CppList T) :
    Except Err (CppList T) :=
  if h0 : step = 0 then .ok acc
  else if hc : (if 0 < step then i < stop else stop < i) then
    if 0 ≤ i then
      match elems.get? i.toNat with
      | some x =>
        match appendElem acc x with
        | .ok acc2 => sliceLoop elems stop step (i + step) acc2
        | .error er => .error er
      | none => .error .indexOutOfRange
    else .error .indexOutOfRange
  else .ok acc
termination_by ((if 0 < step then stop - i else i - stop)).toNat
decreasing_by
  rcases Decidable.em (0 < step) with hs | hs
  · simp [hs] at hc ⊢
    omega
  · simp [hs] at hc ⊢
    omega

/-- `slice(start, stop, step)`: fail with InvalidArgument on a zero step,
check `start` against `[-size, size)` and `stop` against
`[-size - 1, size + 1)`, convert negative indices, then walk from `start`
toward `stop` copying the visited elements into a fresh list. -/
def sliceCpp (l : CppList T) (start stop : Int) (step : Int) :
    Except Err (CppList T) :=
  if step = 0 then .error .invalidArgument
  else
    match checkBounds start (-(l.size : Int)) (l.size : Int) with
    | .error er => .error er
    | .ok _ =>
      match checkBounds stop (-(l.size : Int) - 1) ((l.size : Int) + 1) with
      | .error er => .error er
      | .ok _ =>
        let start2 := if start < 0 then start + (l.size : Int) else start
        let stop2 := if stop < 0 then stop + (l.size : Int) else stop
        sliceLoop l.elems stop2 step start2 (emptyCpp T)

/-- The data-model invariant (spec section 3): the length never exceeds the
capacity, the capacity never exceeds `MAX_CAPACITY` and is positive.
(`0 ≤ length` is automatic for a `Nat` length.) -/
def Inv (l : CppList T) : Prop :=
  l.elems.length ≤ l.capacity ∧ l.capacity ≤ MAX_CAPACITY ∧ 0 < l.capacity

instance (l : CppList T) : Decidable (Inv l) := by unfold Inv; infer_instance

/-- Adjacent-sortedness of the first `k` consecutive pairs: what a full
bubble pass with `k` comparisons certifies when it performs no swap. -/
def AdjOK (cmp : T → T → Bool) : Nat → List T → Prop
  | 0, _ => True
  | _, [] => True
  | _, [_] => True
  | k + 1, a :: b :: rest => cmp b a = false ∧ AdjOK cmp k (b :: rest)

/-- The bubble sort outer-loop invariant: the elements from position `n` on
are pairwise in order and none of them must precede any earlier element. -/
def SettledFrom (cmp : T → T → Bool) (n : Nat) (l : List T) : Prop :=
  List.Pairwise (fun a b => cmp b a = false) (l.drop n) ∧
  ∀ x ∈ l.take n, ∀ y ∈ l.drop n, cmp y x = false

/-- Equivalence under a comparator: neither element must precede the other.
Used to state stability: `sort` does not reorder equivalent elements. -/
def equivCmp (cmp : T → T → Bool) (x : T) : T → Bool :=
  fun y => !cmp x y && !cmp y x

/-- The reference description of `find` from the spec, for comparison with
the implementation: a linear scan over positions `[start, clamp(stop, ≤ length))`
(spec section 4.6), returning the first matching position or -1.  The scan
is written over in-range positions only, which is where it differs from the
implementation when `start` is negative. -/
def findFromN (elems : List T) (e : T) : Nat → Nat → Int
  | 0, _ => -1
  | f + 1, i => if elems.get? i = some e then (i : Int) else findFromN elems e f (i + 1)

/-- The spec-side `find(element, start, stop)` for `0 ≤ start`: first match
in `[start, min stop length)`, or -1. -/
def findSpec (l : CppList T) (e : T) (start stop : Int) : Int :=
  let stop2 := min stop (l.size : Int)
  findFromN l.elems e (stop2 - start).toNat start.toNat

/-- Keeping the last occurrence of every value: drop an element when it
occurs again later.  This is exactly Mathlib's `List.dedup`
(see `dedupKeepLast_eq_dedup`). -/
def dedupKeepLast : List T → List T
  | [] => []
  | a :: rest => if a ∈ rest then dedupKeepLast rest else a :: dedupKeepLast rest

/-!  Characterization lemmas for the basic operations. -/

theorem expandCapacity_eq (c : Nat) :
    expandCapacity c = min (2 * c) MAX_CAPACITY := by
  unfold expandCapacity
  rw [show MAX_CAPACITY = 2147483646 from rfl]
  norm_num
  split <;> omega

theorem insertCpp_full (l : CppList T) (index : Int) (e : T)
    (h : l.elems.length = MAX_CAPACITY) :
    insertCpp l index e = .error .capacityExceeded := by
  simp [insertCpp, checkFull, size, h]

theorem insertCpp_oob (l : CppList T) (index : Int) (e : T)
    (hfull : l.elems.length ≠ MAX_CAPACITY)
    (h : index < -(l.elems.length : Int) ∨ (l.elems.length : Int) + 1 ≤ index) :
    insertCpp l index e = .error .indexOutOfRange := by
  simp only [insertCpp, checkFull, checkBounds, size]
  rw [if_neg hfull, if_pos h]

theorem insertCpp_ok (l : CppList T) (index : Int) (e : T)
    (hfull : l.elems.length ≠ MAX_CAPACITY)
    (hlo : -(l.elems.length : Int) ≤ index)
    (hhi : index < (l.elems.length : Int) + 1) :
    insertCpp l index e =
      .ok ⟨l.elems.take (if 0 ≤ index then index else index + (l.elems.length : Int)).toNat
            ++ e :: l.elems.drop (if 0 ≤ index then index else index + (l.elems.length : Int)).toNat,
           if l.elems.length = l.capacity then expandCapacity l.capacity else l.capacity⟩ := by
  simp only [insertCpp, checkFull, checkBounds, size]
  rw [if_neg hfull, if_neg (by omega)]

theorem removeCpp_empty (l : CppList T) (index : Int) (h : l.elems.length = 0) :
    removeCpp l index = .error .emptyContainer := by
  simp [removeCpp, checkEmpty, size, h]

theorem removeCpp_oob (l : CppList T) (index : Int)
    (hne : l.elems.length ≠ 0)
    (h : index < -(l.elems.length : Int) ∨ (l.elems.length : Int) ≤ index) :
    removeCpp l index = .error .indexOutOfRange := by
  simp only [removeCpp, checkEmpty, checkBounds, size]
  rw [if_neg hne, if_pos h]

theorem removeCpp_ok (l : CppList T) (index : Int)
    (hne : l.elems.length ≠ 0)
    (hlo : -(l.elems.length : Int) ≤ index)
    (hhi : index < (l.elems.length : Int)) :
    ∃ x, removeCpp l index =
        .ok (⟨l.elems.take (if 0 ≤ index then index else index + (l.elems.length : Int)).toNat
               ++ l.elems.drop ((if 0 ≤ index then index else index + (l.elems.length : Int)).toNat + 1),
              l.capacity⟩, x)
      ∧ l.elems.get? (if 0 ≤ index then index else index + (l.elems.length : Int)).toNat = some x := by
  have hr : (if 0 ≤ index then index else index + (l.elems.length : Int)).toNat
      < l.elems.length := by split <;> omega
  obtain ⟨x, hx⟩ : ∃ x, l.elems.get?
      (if 0 ≤ index then index else index + (l.elems.length : Int)).toNat = some x := by
    rw [List.get?_eq_get hr]
    exact ⟨_, rfl⟩
  refine ⟨x, ?_, hx⟩
  simp only [removeCpp, checkEmpty, checkBounds, size]
  rw [if_neg hne, if_neg (by omega)]
  simp only [hx]

theorem removeCpp_capacity (l : CppList T) (index : Int) (l2 : CppList T) (x : T)
    (h : removeCpp l index = .ok (l2, x)) : l2.capacity = l.capacity := by
  simp only [removeCpp, checkEmpty, checkBounds, size] at h
  split at h
  · exact absurd h (by simp)
  · split at h
    · exact absurd h (by simp)
    · split at h
      · simp only [Except.ok.injEq, Prod.mk.injEq] at h
        rw [← h.1]
      · exact absurd h (by simp)

theorem removeCpp_length (l : CppList T) (index : Int) (l2 : CppList T) (x : T)
    (h : removeCpp l index = .ok (l2, x)) :
    l2.elems.length + 1 = l.elems.length := by
  simp only [removeCpp, checkEmpty, checkBounds, size] at h
  split at h
  · exact absurd h (by simp)
  · split at h
    · exact absurd h (by simp)
    · split at h <;> rename_i x2 hget
      · simp only [Except.ok.injEq, Prod.mk.injEq] at h
        obtain ⟨hr, -⟩ := List.get?_eq_some.mp hget
        rw [← h.1]
        simp [List.length_take, List.length_drop]
        omega
      · exact absurd h (by simp)

/-- `operator+=(const T&)` appends at the end when the container is not at
the absolute maximum size. -/
theorem appendElem_ok (l : CppList T) (e : T)
    (hfull : l.elems.length ≠ MAX_CAPACITY) :
    appendElem l e =
      .ok ⟨l.elems ++ [e],
           if l.elems.length = l.capacity then expandCapacity l.capacity else l.capacity⟩ := by
  rw [appendElem, size, insertCpp_ok l _ e hfull (by omega) (by omega)]
  simp

theorem appendElem_full (l : CppList T) (e : T)
    (h : l.elems.length = MAX_CAPACITY) :
    appendElem l e = .error .capacityExceeded := insertCpp_full l _ e h

/-- Appending a sequence succeeds when the total stays within
`MAX_CAPACITY`, and the elements end up appended in order. -/
theorem appendAll_ok (xs : List T) : ∀ l : CppList T,
    l.elems.length + xs.length ≤ MAX_CAPACITY →
    ∃ c, appendAll l xs = .ok ⟨l.elems ++ xs, c⟩ := by
  induction xs with
  | nil => intro l h; exact ⟨l.capacity, by simp [appendAll]⟩
  | cons x xs ih =>
    intro l h
    have hfull : l.elems.length ≠ MAX_CAPACITY := by
      simp only [List.length_cons] at h; omega
    have hlen : ((⟨l.elems ++ [x],
        if l.elems.length = l.capacity then expandCapacity l.capacity
        else l.capacity⟩ : CppList T)).elems.length + xs.length ≤ MAX_CAPACITY := by
      simp only [List.length_append, List.length_cons, List.length_nil] at h ⊢
      omega
    obtain ⟨c, hc⟩ := ih _ hlen
    refine ⟨c, ?_⟩
    rw [appendAll, appendElem_ok l x hfull]
    show appendAll _ xs = _
    rw [hc]
    simp

/-- Appending a sequence that would push the size past `MAX_CAPACITY` fails
with CapacityExceeded (the size grows one by one and must eventually hit
exactly `MAX_CAPACITY` with elements still left to insert). -/
theorem appendAll_err (xs : List T) : ∀ l : CppList T,
    l.elems.length ≤ MAX_CAPACITY →
    MAX_CAPACITY < l.elems.length + xs.length →
    appendAll l xs = .error .capacityExceeded := by
  induction xs with
  | nil => intro l h1 h2; simp only [List.length_nil] at h2; omega
  | cons x xs ih =>
    intro l h1 h2
    by_cases hfull : l.elems.length = MAX_CAPACITY
    · rw [appendAll, appendElem_full l x hfull]
    · rw [appendAll, appendElem_ok l x hfull]
      show appendAll _ xs = _
      apply ih
      · simp only [List.length_append, List.length_cons, List.length_nil]
        omega
      · simp only [List.length_append, List.length_cons, List.length_nil] at h2 ⊢
        omega

/-!  Lemmas about `find` and `operator-=`. -/

/-- For a non-negative scan start the implementation loop agrees with the
spec-side scan (the fuel either covers in-range positions only, or is 0). -/
theorem findLoop_nonneg (elems : List T) (e : T) :
    ∀ (fuel : Nat) (i : Int), 0 ≤ i →
    (i.toNat + fuel ≤ elems.length ∨ fuel = 0) →
    findLoop elems e fuel i = some (findFromN elems e fuel i.toNat) := by
  intro fuel
  induction fuel with
  | zero => intro i _ _; rfl
  | succ f ih =>
    intro i h1 h2
    have hlt : i.toNat < elems.length := by omega
    have hx : elems.get? i.toNat = some (elems.get ⟨i.toNat, hlt⟩) :=
      List.get?_eq_get hlt
    simp only [findLoop, findFromN, hx, if_pos h1, Option.some.injEq]
    rcases Decidable.em (elems.get ⟨i.toNat, hlt⟩ = e) with hxe | hxe
    · rw [if_pos hxe, if_pos (by rw [hxe]), Int.toNat_of_nonneg h1]
    · rw [if_neg hxe, if_neg (by simpa using hxe),
        ih (i + 1) (by omega) (by omega),
        show (i + 1).toNat = i.toNat + 1 by omega]

/-- The spec-side scan returns position `s + k` when `s + k` holds the
element and no earlier scanned position does, provided the fuel reaches it. -/
theorem findFromN_of_first (elems : List T) (e : T) :
    ∀ (k s f : Nat),
    (∀ j, s ≤ j → j < s + k → elems.get? j ≠ some e) →
    elems.get? (s + k) = some e → k < f →
    findFromN elems e f s = ((s + k : Nat) : Int) := by
  intro k
  induction k with
  | zero =>
    intro s f hnone hhit hf
    obtain ⟨f2, rfl⟩ : ∃ f2, f = f2 + 1 := ⟨f - 1, by omega⟩
    simp only [findFromN]
    rw [if_pos (by simpa using hhit)]
    simp
  | succ k ih =>
    intro s f hnone hhit hf
    obtain ⟨f2, rfl⟩ : ∃ f2, f = f2 + 1 := ⟨f - 1, by omega⟩
    simp only [findFromN]
    rw [if_neg (hnone s (le_refl s) (by omega)),
      ih (s + 1) f2 (fun j hj1 hj2 => hnone j (by omega) (by omega))
        (by rw [show s + 1 + k = s + (k + 1) by omega]; exact hhit) (by omega),
      show s + 1 + k = s + (k + 1) by omega]

/-- `find` with default arguments locates the first occurrence: on
`pre ++ e :: rest` with `e ∉ pre` it returns `pre.length`. -/
theorem findDefault_first (l : CppList T) (e : T) (pre rest : List T)
    (hsplit : l.elems = pre ++ e :: rest) (hnot : e ∉ pre)
    (hmax : l.elems.length ≤ MAX_CAPACITY) :
    findDefault l e = some ((pre.length : Nat) : Int) := by
  have hn : (MAX_CAPACITY : Int) + 1 > (l.size : Int) := by
    rw [size]; omega
  rw [findDefault, findCpp]
  simp only [hn, if_pos, gt_iff_lt]
  have hfuel : ((l.size : Int) - 0).toNat = l.elems.length := by
    rw [size]; omega
  rw [hfuel, findLoop_nonneg l.elems e l.elems.length 0 (by omega) (by omega)]
  have hlen : l.elems.length = pre.length + 1 + rest.length := by
    rw [hsplit]; simp; omega
  have hnone : ∀ j, 0 ≤ j → j < 0 + pre.length → l.elems.get? j ≠ some e := by
    intro j _ hj he
    rw [hsplit, List.get?_append (by omega)] at he
    exact hnot (List.get?_mem he)
  have hhit : l.elems.get? (0 + pre.length) = some e := by
    rw [hsplit, Nat.zero_add, List.get?_append_right (le_refl _)]
    simp
  rw [show Int.toNat 0 = 0 from rfl,
    findFromN_of_first l.elems e pre.length 0 l.elems.length hnone hhit
      (by omega)]
  simp

/-- `operator-=` on `pre ++ e :: rest` with `e ∉ pre` removes exactly the
shown occurrence of `e`. -/
theorem subAssign_at (l : CppList T) (e : T) (pre rest : List T)
    (hsplit : l.elems = pre ++ e :: rest) (hnot : e ∉ pre)
    (hmax : l.elems.length ≤ MAX_CAPACITY) :
    subAssign l e = ⟨pre ++ rest, l.capacity⟩ := by
  have hlen : l.elems.length = pre.length + 1 + rest.length := by
    rw [hsplit]; simp; omega
  obtain ⟨x, hrem, hget⟩ := removeCpp_ok l ((pre.length : Nat) : Int)
    (by omega) (by omega) (by omega)
  have hfd := findDefault_first l e pre rest hsplit hnot hmax
  rw [subAssign, hfd]
  simp only [subAssignGo]
  rw [if_neg (by omega), hrem]
  simp only [keepRemoved]
  have hr : (if 0 ≤ ((pre.length : Nat) : Int)
      then ((pre.length : Nat) : Int)
      else ((pre.length : Nat) : Int) + (l.elems.length : Int)).toNat
      = pre.length := by
    rw [if_pos (by omega)]
    omega
  rw [hr] at hget ⊢
  rw [CppList.mk.injEq]
  refine ⟨?_, rfl⟩
  rw [hsplit, List.take_left, List.append_cons, List.drop_left']
  simp

/-- `operator-=` never changes the capacity and never grows the list. -/
theorem subAssign_shape (l : CppList T) (e : T) :
    (subAssign l e).capacity = l.capacity ∧
    (subAssign l e).elems.length ≤ l.elems.length := by
  rw [subAssign]
  rcases hf : findDefault l e with - | idx
  · simp [subAssignGo]
  · rcases Decidable.em (idx = -1) with h1 | h1
    · simp [subAssignGo, h1]
    · rcases hrem : removeCpp l idx with er | ⟨l2, x⟩
      · simp [subAssignGo, keepRemoved, h1, hrem]
      · have h2 := removeCpp_capacity l idx l2 x hrem
        have h3 := removeCpp_length l idx l2 x hrem
        simp only [subAssignGo, keepRemoved, hrem, if_neg h1]
        exact ⟨h2, by omega⟩

/-!  `uniquify` keeps, for each distinct value, its last occurrence. -/

theorem dedupKeepLast_eq_dedup : ∀ l : List T, dedupKeepLast l = l.dedup := by
  intro l
  induction l with
  | nil => rfl
  | cons a rest ih =>
    rcases Decidable.em (a ∈ rest) with h | h
    · rw [dedupKeepLast, if_pos h, ih, List.dedup_cons_of_mem h]
    · rw [dedupKeepLast, if_neg h, ih, List.dedup_cons_of_not_mem h]

/-- Splitting a list at a valid position. -/
theorem take_get_drop (xs : List T) (i : Nat) (h : i < xs.length) :
    xs.take i ++ xs.get ⟨i, h⟩ :: xs.drop (i + 1) = xs := by
  rw [List.get_eq_getElem, ← List.drop_eq_getElem_cons h, List.take_append_drop]

/-- Occurrence counting across a split. -/
theorem count_split (xs ys : List T) (v a : T) :
    (xs ++ v :: ys).count a
      = xs.count a + ys.count a + (if v = a then 1 else 0) := by
  rw [List.count_append, List.count_cons]
  simp only [beq_iff_eq]
  split <;> omega

/-- The nested loop of `uniquify`, on any state where every position before
`i` holds a value occurring exactly once, produces the prefix before `i`
followed by the last-occurrence deduplication of the rest. -/
theorem uniquifyLoop_eq (l : CppList T) (i : Nat) :
    l.elems.length ≤ MAX_CAPACITY →
    (∀ j (hj2 : j < l.elems.length), j < i →
      l.elems.count (l.elems.get ⟨j, hj2⟩) = 1) →
    uniquifyLoop l i =
      ⟨l.elems.take i ++ dedupKeepLast (l.elems.drop i), l.capacity⟩ := by
  induction l, i using uniquifyLoop.induct with
  | case1 l i h hcnt hlen ih =>
    intro hmax hinv
    have hcntc : List.count (l.elems.get ⟨i, h⟩) l.elems > 1 := by
      simpa [countCpp] using hcnt
    have hvnot : l.elems.get ⟨i, h⟩ ∉ l.elems.take i := by
      intro hmem
      obtain ⟨j, hj, hjv⟩ := List.mem_take_iff_getElem.mp hmem
      have h1 := hinv j (by omega) (by omega)
      rw [List.get_eq_getElem, hjv] at h1
      omega
    have hsplit : l.elems
        = l.elems.take i ++ l.elems.get ⟨i, h⟩ :: l.elems.drop (i + 1) :=
      (take_get_drop l.elems i h).symm
    have hsub := subAssign_at l (l.elems.get ⟨i, h⟩) (l.elems.take i)
      (l.elems.drop (i + 1)) hsplit hvnot hmax
    have htakelen : (l.elems.take i).length = i := by
      rw [List.length_take]; omega
    have hcl := count_split (l.elems.take i) (l.elems.drop (i + 1))
      (l.elems.get ⟨i, h⟩) (l.elems.get ⟨i, h⟩)
    rw [← hsplit, if_pos rfl] at hcl
    have htc : (l.elems.take i).count (l.elems.get ⟨i, h⟩) = 0 :=
      List.count_eq_zero.mpr hvnot
    have hvmem : l.elems.get ⟨i, h⟩ ∈ l.elems.drop (i + 1) := by
      rw [← List.count_pos_iff_mem]
      omega
    rw [uniquifyLoop, dif_pos h, if_pos hcnt, dif_pos hlen]
    have hmax2 : (subAssign l (l.elems.get ⟨i, h⟩)).elems.length
        ≤ MAX_CAPACITY := by
      rw [hsub]
      simp only [List.length_append, List.length_take, List.length_drop]
      omega
    have hinv2 : ∀ j (hj2 : j < (subAssign l (l.elems.get ⟨i, h⟩)).elems.length),
        j < i →
        (subAssign l (l.elems.get ⟨i, h⟩)).elems.count
          ((subAssign l (l.elems.get ⟨i, h⟩)).elems.get ⟨j, hj2⟩) = 1 := by
      intro j hj2 hji
      have hj3 : j < l.elems.length := by
        rw [hsub] at hj2
        simp only [List.length_append, List.length_take, List.length_drop] at hj2
        omega
      have hj4 : j < (l.elems.take i).length := by omega
      have hq : (subAssign l (l.elems.get ⟨i, h⟩)).elems.get? j
          = l.elems.get? j := by
        rw [hsub]
        show (l.elems.take i ++ l.elems.drop (i + 1)).get? j = _
        rw [List.get?_append hj4]
        conv_rhs => rw [hsplit]
        rw [List.get?_append hj4]
      have hgj : (subAssign l (l.elems.get ⟨i, h⟩)).elems.get ⟨j, hj2⟩
          = l.elems.get ⟨j, hj3⟩ := by
        rw [List.get?_eq_get hj2, List.get?_eq_get hj3] at hq
        exact Option.some.inj hq
      rw [hgj]
      have h1 := hinv j hj3 hji
      have hne : ¬(l.elems.get ⟨i, h⟩ = l.elems.get ⟨j, hj3⟩) := by
        intro he
        rw [← he] at h1
        omega
      have hc2 := count_split (l.elems.take i) (l.elems.drop (i + 1))
        (l.elems.get ⟨i, h⟩) (l.elems.get ⟨j, hj3⟩)
      rw [← hsplit, if_neg hne] at hc2
      rw [hsub]
      show List.count (l.elems.get ⟨j, hj3⟩)
        (l.elems.take i ++ l.elems.drop (i + 1)) = 1
      rw [List.count_append]
      omega
    rw [ih hmax2 hinv2, hsub]
    rw [CppList.mk.injEq]
    constructor
    · rw [List.take_left' htakelen, List.drop_left' htakelen]
      conv_rhs => rw [show l.elems.drop i
        = l.elems.get ⟨i, h⟩ :: l.elems.drop (i + 1) by
          rw [List.get_eq_getElem, ← List.drop_eq_getElem_cons h]]
      rw [dedupKeepLast, if_pos hvmem]
    · rfl
  | case2 l i h hcnt hlen =>
    intro hmax hinv
    simp only [countCpp] at hcnt
    exfalso
    apply hlen
    have hvnot : l.elems.get ⟨i, h⟩ ∉ l.elems.take i := by
      intro hmem
      obtain ⟨j, hj, hjv⟩ := List.mem_take_iff_getElem.mp hmem
      have h1 := hinv j (by omega) (by omega)
      rw [List.get_eq_getElem, hjv] at h1
      omega
    have hsplit : l.elems
        = l.elems.take i ++ l.elems.get ⟨i, h⟩ :: l.elems.drop (i + 1) :=
      (take_get_drop l.elems i h).symm
    rw [subAssign_at l (l.elems.get ⟨i, h⟩) (l.elems.take i)
      (l.elems.drop (i + 1)) hsplit hvnot hmax]
    simp only [List.length_append, List.length_take, List.length_drop]
    omega
  | case3 l i h hcnt ih =>
    intro hmax hinv
    have hcntc : ¬List.count (l.elems.get ⟨i, h⟩) l.elems > 1 := by
      simpa [countCpp] using hcnt
    have hvmem : l.elems.get ⟨i, h⟩ ∈ l.elems := List.get_mem l.elems i h
    have hone : l.elems.count (l.elems.get ⟨i, h⟩) = 1 := by
      have := List.count_pos_iff_mem.mpr hvmem
      omega
    have hsplit : l.elems
        = l.elems.take i ++ l.elems.get ⟨i, h⟩ :: l.elems.drop (i + 1) :=
      (take_get_drop l.elems i h).symm
    have hcl := count_split (l.elems.take i) (l.elems.drop (i + 1))
      (l.elems.get ⟨i, h⟩) (l.elems.get ⟨i, h⟩)
    rw [← hsplit, if_pos rfl] at hcl
    have hdnot : l.elems.get ⟨i, h⟩ ∉ l.elems.drop (i + 1) := by
      rw [← List.count_eq_zero]
      omega
    have hinv2 : ∀ j (hj2 : j < l.elems.length), j < i + 1 →
        l.elems.count (l.elems.get ⟨j, hj2⟩) = 1 := by
      intro j hj2 hji
      rcases Decidable.em (j < i) with hj | hj
      · exact hinv j hj2 hj
      · have : j = i := by omega
        subst this
        exact hone
    rw [uniquifyLoop, dif_pos h, if_neg hcnt, ih hmax hinv2]
    rw [CppList.mk.injEq]
    constructor
    · conv_rhs => rw [show l.elems.drop i
        = l.elems.get ⟨i, h⟩ :: l.elems.drop (i + 1) by
          rw [List.get_eq_getElem, ← List.drop_eq_getElem_cons h]]
      rw [dedupKeepLast, if_neg hdnot, List.take_succ,
        List.getElem?_eq_getElem h]
      simp only [List.get_eq_getElem, Option.toList_some, List.append_assoc,
        List.singleton_append]
    · rfl
  | case4 l i h =>
    intro hmax hinv
    rw [uniquifyLoop, dif_neg h,
      List.take_all_of_le (by omega), List.drop_eq_nil_of_le (by omega)]
    simp [dedupKeepLast]

/-- `uniquify()` computes exactly the last-occurrence deduplication
(Mathlib's `List.dedup`), keeping the capacity. -/
theorem uniquifyCpp_eq (l : CppList T) (hmax : l.elems.length ≤ MAX_CAPACITY) :
    uniquifyCpp l = ⟨l.elems.dedup, l.capacity⟩ := by
  rw [uniquifyCpp,
    uniquifyLoop_eq l 0 hmax (fun j hj2 hj => absurd hj (by omega))]
  rw [List.take_zero, List.drop_zero, List.nil_append, dedupKeepLast_eq_dedup]

/-- The `uniquify` loop never changes the capacity and never grows the
element sequence. -/
theorem uniquifyLoop_shape (l : CppList T) (i : Nat) :
    (uniquifyLoop l i).capacity = l.capacity ∧
    (uniquifyLoop l i).elems.length ≤ l.elems.length := by
  induction l, i using uniquifyLoop.induct with
  | case1 l i h hcnt hlen ih =>
    rw [uniquifyLoop, dif_pos h, if_pos hcnt, dif_pos hlen]
    obtain ⟨hs1, hs2⟩ := subAssign_shape l (l.elems.get ⟨i, h⟩)
    exact ⟨by rw [ih.1, hs1], by have := ih.2; omega⟩
  | case2 l i h hcnt hlen =>
    rw [uniquifyLoop, dif_pos h, if_pos hcnt, dif_neg hlen]
    exact ⟨rfl, le_refl _⟩
  | case3 l i h hcnt ih =>
    rw [uniquifyLoop, dif_pos h, if_neg hcnt]
    exact ih
  | case4 l i h =>
    rw [uniquifyLoop, dif_neg h]
    exact ⟨rfl, le_refl _⟩

/-!  The bubble sort of `sort(comparator)`: permutation, sortedness under a
strict weak order, and stability. -/

theorem bubblePass_nil (cmp : T → T → Bool) (k : Nat) :
    bubblePass cmp k [] = ([], false) := by
  cases k <;> rfl

theorem bubblePass_zero (cmp : T → T → Bool) (l : List T) :
    bubblePass cmp 0 l = (l, false) := by
  cases l <;> rfl

theorem bubblePass_length (cmp : T → T → Bool) :
    ∀ (k : Nat) (l : List T), (bubblePass cmp k l).1.length = l.length := by
  intro k l
  induction k, l using bubblePass.induct cmp with
  | case1 t => rw [bubblePass_nil]
  | case2 l hl => rw [bubblePass_zero]
  | case3 n a => rfl
  | case4 k a b rest hswap ih =>
    simp only [bubblePass, if_pos hswap, List.length_cons]
    rw [ih]
    simp
  | case5 k a b rest hswap ih =>
    simp only [bubblePass, if_neg hswap, List.length_cons]
    rw [ih]
    simp

theorem bubblePass_perm (cmp : T → T → Bool) :
    ∀ (k : Nat) (l : List T), (bubblePass cmp k l).1.Perm l := by
  intro k l
  induction k, l using bubblePass.induct cmp with
  | case1 t => rw [bubblePass_nil]
  | case2 l hl => rw [bubblePass_zero]
  | case3 n a => exact List.Perm.refl _
  | case4 k a b rest hswap ih =>
    simp only [bubblePass, if_pos hswap]
    exact (ih.cons b).trans (List.Perm.swap a b rest)
  | case5 k a b rest hswap ih =>
    simp only [bubblePass, if_neg hswap]
    exact ih.cons a

theorem bubblePass_drop (cmp : T → T → Bool) :
    ∀ (k : Nat) (l : List T),
    (bubblePass cmp k l).1.drop (k + 1) = l.drop (k + 1) := by
  intro k l
  induction k, l using bubblePass.induct cmp with
  | case1 t => rw [bubblePass_nil]
  | case2 l hl => rw [bubblePass_zero]
  | case3 n a => simp [bubblePass]
  | case4 k a b rest hswap ih =>
    simp only [bubblePass, if_pos hswap, List.drop_succ_cons]
    rw [ih]
    simp [List.drop_succ_cons]
  | case5 k a b rest hswap ih =>
    simp only [bubblePass, if_neg hswap, List.drop_succ_cons]
    rw [ih]
    simp [List.drop_succ_cons]

theorem bubblePass_take_perm (cmp : T → T → Bool) :
    ∀ (k : Nat) (l : List T),
    ((bubblePass cmp k l).1.take (k + 1)).Perm (l.take (k + 1)) := by
  intro k l
  induction k, l using bubblePass.induct cmp with
  | case1 t => rw [bubblePass_nil]
  | case2 l hl => rw [bubblePass_zero]
  | case3 n a => exact List.Perm.refl _
  | case4 k a b rest hswap ih =>
    simp only [bubblePass, if_pos hswap, List.take_succ_cons]
    exact (ih.cons b).trans (List.Perm.swap a b (rest.take k))
  | case5 k a b rest hswap ih =>
    simp only [bubblePass, if_neg hswap, List.take_succ_cons]
    exact ih.cons a

theorem bubblePass_max (cmp : T → T → Bool)
    (hasymm : ∀ a b, cmp a b = true → cmp b a = false)
    (hneg : ∀ a b c, cmp a b = false → cmp b c = false → cmp a c = false) :
    ∀ (k : Nat) (l : List T) (z : T) (t : List T),
    (bubblePass cmp k l).1.drop k = z :: t →
    ∀ x ∈ l.take (k + 1), cmp z x = false := by
  have hirr : ∀ a, cmp a a = false := by
    intro a
    by_cases hb : cmp a a = true
    · exact hasymm a a hb
    · simpa using hb
  intro k l
  induction k, l using bubblePass.induct cmp with
  | case1 t2 =>
    intro z t hd
    rw [bubblePass_nil] at hd
    simp at hd
  | case2 l hl =>
    intro z t hd x hx
    rw [bubblePass_zero, List.drop_zero] at hd
    replace hd : l = z :: t := hd
    rw [hd] at hx
    rw [List.take_succ_cons, List.take_zero] at hx
    rcases List.mem_cons.mp hx with rfl | hx
    · exact hirr _
    · simp at hx
  | case3 n a =>
    intro z t hd
    simp [bubblePass, List.drop_eq_nil_of_le] at hd
  | case4 k a b rest hswap ih =>
    intro z t hd x hx
    simp only [bubblePass, if_pos hswap, List.drop_succ_cons] at hd
    have hzall := ih z t hd
    simp only [List.take_succ_cons, List.mem_cons] at hx hzall ⊢
    rcases hx with rfl | hx
    · exact hzall x (Or.inl rfl)
    rcases hx with rfl | hx
    · exact hneg z a x (hzall a (Or.inl rfl)) (hasymm x a hswap)
    · exact hzall x (Or.inr hx)
  | case5 k a b rest hswap ih =>
    intro z t hd x hx
    simp only [bubblePass, if_neg hswap, List.drop_succ_cons] at hd
    have hzall := ih z t hd
    simp only [List.take_succ_cons, List.mem_cons] at hx hzall ⊢
    have hba : cmp b a = false := by
      rcases hb : cmp b a with - | -
      · rfl
      · exact absurd hb hswap
    rcases hx with rfl | hx
    · exact hneg z b x (hzall b (Or.inl rfl)) hba
    · exact hzall x hx

theorem bubblePass_nswap (cmp : T → T → Bool) :
    ∀ (k : Nat) (l : List T),
    (bubblePass cmp k l).2 = false → (bubblePass cmp k l).1 = l := by
  intro k l
  induction k, l using bubblePass.induct cmp with
  | case1 t => intro _; rw [bubblePass_nil]
  | case2 l hl => intro _; rw [bubblePass_zero]
  | case3 n a => intro _; rfl
  | case4 k a b rest hswap ih =>
    intro hs
    simp [bubblePass, if_pos hswap] at hs
  | case5 k a b rest hswap ih =>
    intro hs
    simp only [bubblePass, if_neg hswap] at hs ⊢
    rw [ih hs]

theorem bubblePass_adj (cmp : T → T → Bool) :
    ∀ (k : Nat) (l : List T),
    (bubblePass cmp k l).2 = false → AdjOK cmp k l := by
  intro k l
  induction k, l using bubblePass.induct cmp with
  | case1 t => intro _; cases t <;> simp [AdjOK]
  | case2 l hl => intro _; simp [AdjOK]
  | case3 n a => intro _; simp [AdjOK]
  | case4 k a b rest hswap ih =>
    intro hs
    simp [bubblePass, if_pos hswap] at hs
  | case5 k a b rest hswap ih =>
    intro hs
    simp only [bubblePass, if_neg hswap] at hs
    refine ⟨?_, ih hs⟩
    rcases hb : cmp b a with - | -
    · rfl
    · exact absurd hb hswap

theorem adjOK_pairwise (cmp : T → T → Bool)
    (hneg : ∀ a b c, cmp a b = false → cmp b c = false → cmp a c = false) :
    ∀ (l : List T) (k : Nat), AdjOK cmp k l →
    List.Pairwise (fun a b => cmp b a = false) (l.take (k + 1)) := by
  intro l
  induction l with
  | nil => intro k _; simp
  | cons a l2 ih =>
    intro k hadj
    cases l2 with
    | nil =>
      rw [List.take_succ_cons, List.take_nil]
      simp
    | cons b rest =>
      cases k with
      | zero => simp
      | succ k2 =>
        obtain ⟨h1, h2⟩ : cmp b a = false ∧ AdjOK cmp k2 (b :: rest) := hadj
        have hp := ih k2 h2
        rw [List.take_succ_cons]
        refine List.Pairwise.cons ?_ hp
        intro y hy
        rw [List.take_succ_cons] at hy
        rcases List.mem_cons.mp hy with rfl | hy2
        · exact h1
        · have hby : cmp y b = false := by
            rw [List.take_succ_cons] at hp
            exact List.rel_of_pairwise_cons hp hy2
          exact hneg y b a hby h1

/-- One bubble pass extends the settled suffix by one position. -/
theorem settled_step (cmp : T → T → Bool)
    (hasymm : ∀ a b, cmp a b = true → cmp b a = false)
    (hneg : ∀ a b c, cmp a b = false → cmp b c = false → cmp a c = false)
    (n : Nat) (l : List T) (hs : SettledFrom cmp (n + 2) l) :
    SettledFrom cmp (n + 1) (bubblePass cmp (n + 1) l).1 := by
  obtain ⟨hpw, hcross⟩ := hs
  have hdrop := bubblePass_drop cmp (n + 1) l
  have htp := bubblePass_take_perm cmp (n + 1) l
  rcases hd : (bubblePass cmp (n + 1) l).1.drop (n + 1) with - | ⟨z, t⟩
  · refine ⟨by rw [hd]; exact List.Pairwise.nil, ?_⟩
    intro x hx y hy
    rw [hd] at hy
    simp at hy
  · have ht : t = l.drop (n + 2) := by
      have h1 : List.drop 1 (List.drop (n + 1) (bubblePass cmp (n + 1) l).1)
          = List.drop (n + 2) (bubblePass cmp (n + 1) l).1 := by
        rw [List.drop_drop]
      rw [hd] at h1
      simp only [List.drop_succ_cons, List.drop_zero] at h1
      rw [h1, hdrop]
    have hz : z ∈ (bubblePass cmp (n + 1) l).1.take (n + 2) := by
      rw [show n + 2 = (n + 1) + 1 from rfl, List.take_add, hd]
      simp
    have hz2 : z ∈ l.take (n + 2) := htp.mem_iff.mp hz
    have hmaxz := bubblePass_max cmp hasymm hneg (n + 1) l z t hd
    constructor
    · rw [hd]
      refine List.Pairwise.cons ?_ (by rw [ht]; exact hpw)
      intro y hy
      rw [ht] at hy
      exact hcross z hz2 y hy
    · intro x hx y hy
      have hx2 : x ∈ (bubblePass cmp (n + 1) l).1.take (n + 2) := by
        rw [show n + 2 = (n + 1) + 1 from rfl, List.take_add]
        exact List.mem_append_left _ hx
      have hx3 : x ∈ l.take (n + 2) := htp.mem_iff.mp hx2
      rw [hd] at hy
      rcases List.mem_cons.mp hy with rfl | hy2
      · exact hmaxz x hx3
      · rw [ht] at hy2
        exact hcross x hx3 y hy2

/-- The outer loop of `sort` produces a pairwise-ordered sequence from any
state whose settled suffix matches the remaining pass count. -/
theorem sortPasses_pairwise (cmp : T → T → Bool)
    (hasymm : ∀ a b, cmp a b = true → cmp b a = false)
    (hneg : ∀ a b c, cmp a b = false → cmp b c = false → cmp a c = false) :
    ∀ (n : Nat) (l : List T), SettledFrom cmp (n + 1) l →
    List.Pairwise (fun a b => cmp b a = false) (sortPasses cmp n l) := by
  intro n
  induction n with
  | zero =>
    intro l hs
    obtain ⟨hpw, hcross⟩ := hs
    show List.Pairwise _ l
    cases l with
    | nil => exact List.Pairwise.nil
    | cons a xs =>
      refine List.Pairwise.cons ?_ (by simpa using hpw)
      intro y hy
      exact hcross a (by simp) y (by simpa using hy)
  | succ n ih =>
    intro l hs
    have hstep := settled_step cmp hasymm hneg n l hs
    rcases hp2 : (bubblePass cmp (n + 1) l).2 with - | -
    · have heq : sortPasses cmp (n + 1) l = (bubblePass cmp (n + 1) l).1 := by
        simp only [sortPasses, hp2, Bool.false_eq_true, if_false]
      rw [heq, bubblePass_nswap cmp (n + 1) l hp2]
      have hadj := bubblePass_adj cmp (n + 1) l hp2
      have hpre := adjOK_pairwise cmp hneg l (n + 1) hadj
      obtain ⟨hpw, hcross⟩ := hs
      rw [← List.take_append_drop (n + 2) l, List.pairwise_append]
      exact ⟨hpre, hpw, hcross⟩
    · have heq : sortPasses cmp (n + 1) l
          = sortPasses cmp n (bubblePass cmp (n + 1) l).1 := by
        simp only [sortPasses, hp2, if_true]
      rw [heq]
      exact ih _ hstep

theorem sortPasses_perm (cmp : T → T → Bool) :
    ∀ (n : Nat) (l : List T), (sortPasses cmp n l).Perm l := by
  intro n
  induction n with
  | zero => intro l; exact List.Perm.refl l
  | succ n ih =>
    intro l
    rcases hp2 : (bubblePass cmp (n + 1) l).2 with - | -
    · have heq : sortPasses cmp (n + 1) l = (bubblePass cmp (n + 1) l).1 := by
        simp only [sortPasses, hp2, Bool.false_eq_true, if_false]
      rw [heq]
      exact bubblePass_perm cmp (n + 1) l
    · have heq : sortPasses cmp (n + 1) l
          = sortPasses cmp n (bubblePass cmp (n + 1) l).1 := by
        simp only [sortPasses, hp2, if_true]
      rw [heq]
      exact (ih _).trans (bubblePass_perm cmp (n + 1) l)

/-- A bubble pass never reorders elements of one `p`-class, as long as no
swapped pair can be inside the class. -/
theorem bubblePass_filter (cmp : T → T → Bool) (p : T → Bool)
    (hp : ∀ a b, cmp b a = true → ¬(p a = true ∧ p b = true)) :
    ∀ (k : Nat) (l : List T),
    (bubblePass cmp k l).1.filter p = l.filter p := by
  intro k l
  induction k, l using bubblePass.induct cmp with
  | case1 t => rw [bubblePass_nil]
  | case2 l hl => rw [bubblePass_zero]
  | case3 n a => rfl
  | case4 k a b rest hswap ih =>
    simp only [bubblePass, if_pos hswap]
    rw [List.filter_cons, ih, List.filter_cons, List.filter_cons,
      List.filter_cons]
    rcases hpa : p a with - | - <;> rcases hpb : p b with - | -
    · simp [hpa, hpb]
    · simp [hpa, hpb]
    · simp [hpa, hpb]
    · exact absurd ⟨hpa, hpb⟩ (hp a b hswap)
  | case5 k a b rest hswap ih =>
    simp only [bubblePass, if_neg hswap]
    simp only [List.filter_cons, ih]

theorem sortPasses_filter (cmp : T → T → Bool) (p : T → Bool)
    (hp : ∀ a b, cmp b a = true → ¬(p a = true ∧ p b = true)) :
    ∀ (n : Nat) (l : List T),
    (sortPasses cmp n l).filter p = l.filter p := by
  intro n
  induction n with
  | zero => intro l; rfl
  | succ n ih =>
    intro l
    rcases hp2 : (bubblePass cmp (n + 1) l).2 with - | -
    · have heq : sortPasses cmp (n + 1) l = (bubblePass cmp (n + 1) l).1 := by
        simp only [sortPasses, hp2, Bool.false_eq_true, if_false]
      rw [heq]
      exact bubblePass_filter cmp p hp (n + 1) l
    · have heq : sortPasses cmp (n + 1) l
          = sortPasses cmp n (bubblePass cmp (n + 1) l).1 := by
        simp only [sortPasses, hp2, if_true]
      rw [heq, ih _]
      exact bubblePass_filter cmp p hp (n + 1) l

/-- `sort` returns a permutation of the input. -/
theorem sortList_perm (cmp : T → T → Bool) (l : List T) :
    (sortList cmp l).Perm l :=
  sortPasses_perm cmp (l.length - 1) l

/-- `sort` under a strict weak order (`comparator(a, b)` true iff `a` must
precede `b`) orders the sequence pairwise. -/
theorem sortList_pairwise (cmp : T → T → Bool)
    (hasymm : ∀ a b, cmp a b = true → cmp b a = false)
    (hneg : ∀ a b c, cmp a b = false → cmp b c = false → cmp a c = false)
    (l : List T) :
    List.Pairwise (fun a b => cmp b a = false) (sortList cmp l) := by
  apply sortPasses_pairwise cmp hasymm hneg
  constructor
  · rw [List.drop_eq_nil_of_le (by omega)]
    exact List.Pairwise.nil
  · intro x hx y hy
    rw [List.drop_eq_nil_of_le (by omega)] at hy
    simp at hy

/-- `sort` is stable: the sublist of any comparator-equivalence class is
unchanged. -/
theorem sortList_stable (cmp : T → T → Bool)
    (hneg : ∀ a b c, cmp a b = false → cmp b c = false → cmp a c = false)
    (x : T) (l : List T) :
    (sortList cmp l).filter (equivCmp cmp x) = l.filter (equivCmp cmp x) := by
  apply sortPasses_filter
  intro a b hba hab
  obtain ⟨ha, hb⟩ := hab
  simp only [equivCmp, Bool.and_eq_true, Bool.not_eq_true', beq_iff_eq] at ha hb
  have h2 := hneg b x a hb.2 ha.1
  rw [hba] at h2
  exact absurd h2 (by decide)

/-!  The loop of `operator*=`. -/

theorem concatAssign_not_aliased (self other : CppList T) :
    concatAssign self other false = appendAll self other.elems := rfl

theorem mulLoop_ok : ∀ (k : Nat) (l acc : CppList T),
    acc.elems.length + k * l.elems.length ≤ MAX_CAPACITY →
    ∃ c, mulLoop l k acc
      = .ok ⟨acc.elems ++ (List.replicate k l.elems).join, c⟩ := by
  intro k
  induction k with
  | zero =>
    intro l acc h
    exact ⟨acc.capacity, by simp [mulLoop]⟩
  | succ k ih =>
    intro l acc h
    have h1 : acc.elems.length + l.elems.length ≤ MAX_CAPACITY := by
      have : (k + 1) * l.elems.length = l.elems.length + k * l.elems.length := by
        ring
      omega
    obtain ⟨c1, hc1⟩ := appendAll_ok l.elems acc h1
    have h2 : ((⟨acc.elems ++ l.elems, c1⟩ : CppList T)).elems.length
        + k * l.elems.length ≤ MAX_CAPACITY := by
      simp only [List.length_append]
      have : (k + 1) * l.elems.length = l.elems.length + k * l.elems.length := by
        ring
      omega
    obtain ⟨c, hc⟩ := ih l _ h2
    refine ⟨c, ?_⟩
    rw [mulLoop, concatAssign_not_aliased, hc1]
    show mulLoop l k _ = _
    rw [hc]
    simp [List.replicate_succ, List.append_assoc]

theorem mulLoop_err : ∀ (k : Nat) (l acc : CppList T),
    acc.elems.length ≤ MAX_CAPACITY →
    MAX_CAPACITY < acc.elems.length + k * l.elems.length →
    mulLoop l k acc = .error .capacityExceeded := by
  intro k
  induction k with
  | zero =>
    intro l acc h1 h2
    simp only [Nat.zero_mul] at h2
    omega
  | succ k ih =>
    intro l acc h1 h2
    have hm : (k + 1) * l.elems.length = l.elems.length + k * l.elems.length := by
      ring
    rcases Decidable.em (acc.elems.length + l.elems.length ≤ MAX_CAPACITY)
      with h3 | h3
    · obtain ⟨c1, hc1⟩ := appendAll_ok l.elems acc h3
      rw [mulLoop, concatAssign_not_aliased, hc1]
      show mulLoop l k _ = _
      exact ih l _ (by simp only [List.length_append]; omega)
        (by simp only [List.length_append]; omega)
    · rw [mulLoop, concatAssign_not_aliased,
        appendAll_err l.elems acc h1 (by omega)]

/-- `operator*=` with a negative count fails before any mutation. -/
theorem mulAssign_neg (l : CppList T) (times : Int) (h : times < 0) :
    mulAssign l times = .error .invalidArgument := by
  rw [mulAssign, if_pos h]

/-- `operator*=` with a representable total size: the result is the receiver
repeated `times` times. -/
theorem mulAssign_ok (l : CppList T) (times : Int) (h : 0 ≤ times)
    (hsz : times.toNat * l.elems.length ≤ MAX_CAPACITY) :
    ∃ c, mulAssign l times
      = .ok ⟨(List.replicate times.toNat l.elems).join, c⟩ := by
  obtain ⟨c, hc⟩ := mulLoop_ok times.toNat l (emptyCpp T) (by
    simp only [emptyCpp, List.length_nil, Nat.zero_add]
    exact hsz)
  refine ⟨c, ?_⟩
  rw [mulAssign, if_neg (by omega), hc]
  rfl

/-- `operator*=` past the maximum capacity fails with CapacityExceeded. -/
theorem mulAssign_overflow (l : CppList T) (times : Int) (h : 0 ≤ times)
    (hsz : MAX_CAPACITY < times.toNat * l.elems.length) :
    mulAssign l times = .error .capacityExceeded := by
  rw [mulAssign, if_neg (by omega),
    mulLoop_err times.toNat l (emptyCpp T) (by simp [emptyCpp, MAX_CAPACITY])
      (by simpa [emptyCpp] using hsz)]

/-!  Preservation of the data-model invariant. -/

theorem insertCpp_inv (l : CppList T) (index : Int) (e : T) (hinv : Inv l) :
    ∀ l2, insertCpp l index e = .ok l2 → Inv l2 := by
  intro l2 h
  obtain ⟨hi1, hi2, hi3⟩ := hinv
  by_cases hfull : l.elems.length = MAX_CAPACITY
  · rw [insertCpp_full l index e hfull] at h
    exact absurd h (by simp)
  by_cases hb : index < -(l.elems.length : Int)
      ∨ (l.elems.length : Int) + 1 ≤ index
  · rw [insertCpp_oob l index e hfull hb] at h
    exact absurd h (by simp)
  push_neg at hb
  rw [insertCpp_ok l index e hfull hb.1 (by omega)] at h
  simp only [Except.ok.injEq] at h
  have hr : (if 0 ≤ index then index else index + (l.elems.length : Int)).toNat
      ≤ l.elems.length := by
    rcases hb with ⟨hb1, hb2⟩
    split <;> omega
  have hlen : l2.elems.length = l.elems.length + 1 := by
    rw [← h]
    simp only [List.length_append, List.length_take, List.length_cons,
      List.length_drop]
    omega
  have hcap : l2.capacity =
      if l.elems.length = l.capacity then expandCapacity l.capacity
      else l.capacity := by
    rw [← h]
  refine ⟨?_, ?_, ?_⟩
  · rw [hlen, hcap]
    split <;> rename_i hfc
    · rw [expandCapacity_eq]
      omega
    · omega
  · rw [hcap]
    split
    · rw [expandCapacity_eq]
      omega
    · exact hi2
  · rw [hcap]
    split
    · rw [expandCapacity_eq]
      have hM : 0 < MAX_CAPACITY := by decide
      omega
    · exact hi3

theorem appendAll_inv (xs : List T) : ∀ (l : CppList T), Inv l →
    ∀ l2, appendAll l xs = .ok l2 → Inv l2 := by
  induction xs with
  | nil =>
    intro l hinv l2 h
    rw [appendAll] at h
    simp only [Except.ok.injEq] at h
    rw [← h]
    exact hinv
  | cons x xs ih =>
    intro l hinv l2 h
    rw [appendAll] at h
    rcases happ : appendElem l x with er | l3
    · rw [happ] at h
      exact absurd h (by simp)
    · rw [happ] at h
      exact ih l3 (insertCpp_inv l _ x hinv l3 happ) l2 h

/-!  The copy loop of `slice`. -/

/-- With step 1 and stop at the length, the slice loop appends every element
from the current position on. -/
theorem sliceLoop_one (elems : List T) :
    ∀ (d : Nat) (i : Int) (acc : CppList T), 0 ≤ i →
    ((elems.length : Int) - i).toNat = d →
    sliceLoop elems (elems.length : Int) 1 i acc
      = appendAll acc (elems.drop i.toNat) := by
  intro d
  induction d with
  | zero =>
    intro i acc h0 hd
    rw [sliceLoop, dif_neg (by norm_num : ¬(1 : Int) = 0),
      dif_neg (by rw [if_pos (show (0 : Int) < 1 by norm_num)]; omega),
      List.drop_eq_nil_of_le (by omega), appendAll]
  | succ d ih =>
    intro i acc h0 hd
    have hlt : i.toNat < elems.length := by omega
    have hget : elems.get? i.toNat = some (elems.get ⟨i.toNat, hlt⟩) :=
      List.get?_eq_get hlt
    have hdropc : elems.drop i.toNat
        = elems.get ⟨i.toNat, hlt⟩ :: elems.drop (i.toNat + 1) := by
      rw [List.drop_eq_getElem_cons hlt, List.get_eq_getElem]
    rw [sliceLoop, dif_neg (by norm_num : ¬(1 : Int) = 0),
      dif_pos (by rw [if_pos (show (0 : Int) < 1 by norm_num)]; omega),
      if_pos h0]
    rcases happ : appendElem acc (elems.get ⟨i.toNat, hlt⟩) with er | acc2
    · simp only [hget, happ]
      rw [hdropc, appendAll, happ]
    · simp only [hget, happ]
      rw [hdropc, appendAll, happ,
        ih (i + 1) acc2 (by omega) (by omega),
        show (i + 1).toNat = i.toNat + 1 by omega]

/-- The slice loop succeeds whenever the walk stays inside the element range
and the accumulated size cannot reach the maximum. -/
theorem sliceLoop_ok (elems : List T) (stop step : Int) :
    ∀ (i : Int) (acc : CppList T),
    (0 < step → 0 ≤ i ∧ stop ≤ (elems.length : Int)) →
    (step < 0 → i < (elems.length : Int) ∧ -1 ≤ stop) →
    acc.elems.length
      + ((if 0 < step then stop - i else i - stop)).toNat ≤ MAX_CAPACITY →
    ∃ l2, sliceLoop elems stop step i acc = .ok l2 := by
  intro i acc
  induction i, acc using sliceLoop.induct elems stop step with
  | case1 i acc h0 =>
    intro _ _ _
    rw [sliceLoop, dif_pos h0]
    exact ⟨acc, rfl⟩
  | case2 i acc h0 hc hi x hget l2 happ ih =>
    intro hp hq hm
    have hc2 : (if 0 < step then i < stop else stop < i) := hc
    rw [sliceLoop, dif_neg h0, dif_pos hc2, if_pos hi]
    simp only [hget, happ]
    apply ih
    · intro hs
      exact ⟨by have := (hp hs).1; omega, (hp hs).2⟩
    · intro hs
      refine ⟨?_, (hq hs).2⟩
      have h2 := (hq hs).1
      omega
    · have hl2 : l2.elems.length = acc.elems.length + 1 := by
        have hfull : acc.elems.length ≠ MAX_CAPACITY := by
          rcases Decidable.em (0 < step) with hs | hs
          · rw [if_pos hs] at hm
            rw [if_pos hs] at hc2
            omega
          · rw [if_neg hs] at hm
            rw [if_neg hs] at hc2
            omega
        rw [appendElem_ok acc x hfull] at happ
        simp only [Except.ok.injEq] at happ
        rw [← happ]
        simp
      rcases Decidable.em (0 < step) with hs | hs
      · rw [if_pos hs] at hm hc2 ⊢
        omega
      · rw [if_neg hs] at hm hc2 ⊢
        omega
  | case3 i acc h0 hc hi x hget er happ =>
    intro hp hq hm
    exfalso
    have hc2 : (if 0 < step then i < stop else stop < i) := hc
    have hfull : acc.elems.length ≠ MAX_CAPACITY := by
      rcases Decidable.em (0 < step) with hs | hs
      · rw [if_pos hs] at hm
        rw [if_pos hs] at hc2
        omega
      · rw [if_neg hs] at hm
        rw [if_neg hs] at hc2
        omega
    rw [appendElem_ok acc x hfull] at happ
    exact absurd happ (by simp)
  | case4 i acc h0 hc hi hget =>
    intro hp hq hm
    exfalso
    have hc2 : (if 0 < step then i < stop else stop < i) := hc
    have hlt : i.toNat < elems.length := by
      rcases Decidable.em (0 < step) with hs | hs
      · rw [if_pos hs] at hc2
        have := (hp hs).2
        omega
      · rw [if_neg hs] at hc2
        have hs2 : step < 0 := by omega
        have := (hq hs2).1
        omega
    rw [List.get?_eq_get hlt] at hget
    exact absurd hget (by simp)
  | case5 i acc h0 hc hi =>
    intro hp hq hm
    exfalso
    have hc2 : (if 0 < step then i < stop else stop < i) := hc
    rcases Decidable.em (0 < step) with hs | hs
    · exact hi (hp hs).1
    · rw [if_neg hs] at hc2
      have hs2 : step < 0 := by omega
      have := (hq hs2).2
      omega
  | case6 i acc h0 hc =>
    intro _ _ _
    have hc2 : ¬(if 0 < step then i < stop else stop < i) := hc
    rw [sliceLoop, dif_neg h0, dif_neg hc2]
    exact ⟨acc, rfl⟩

/-- The slice loop preserves the data-model invariant. -/
theorem sliceLoop_inv (elems : List T) (stop step : Int) :
    ∀ (i : Int) (acc : CppList T), Inv acc →
    ∀ l2, sliceLoop elems stop step i acc = .ok l2 → Inv l2 := by
  intro i acc
  induction i, acc using sliceLoop.induct elems stop step with
  | case1 i acc h0 =>
    intro hinv l2 hl2
    rw [sliceLoop, dif_pos h0] at hl2
    simp only [Except.ok.injEq] at hl2
    rw [← hl2]
    exact hinv
  | case2 i acc h0 hc hi x hget l2 happ ih =>
    intro hinv l3 hl3
    have hc2 : (if 0 < step then i < stop else stop < i) := hc
    rw [sliceLoop, dif_neg h0, dif_pos hc2, if_pos hi] at hl3
    simp only [hget, happ] at hl3
    exact ih (insertCpp_inv acc _ x hinv l2 happ) l3 hl3
  | case3 i acc h0 hc hi x hget er happ =>
    intro hinv l3 hl3
    have hc2 : (if 0 < step then i < stop else stop < i) := hc
    rw [sliceLoop, dif_neg h0, dif_pos hc2, if_pos hi] at hl3
    simp only [hget, happ] at hl3
    exact absurd hl3 (by simp)
  | case4 i acc h0 hc hi hget =>
    intro hinv l3 hl3
    have hc2 : (if 0 < step then i < stop else stop < i) := hc
    rw [sliceLoop, dif_neg h0, dif_pos hc2, if_pos hi] at hl3
    simp only [hget] at hl3
    exact absurd hl3 (by simp)
  | case5 i acc h0 hc hi =>
    intro hinv l3 hl3
    have hc2 : (if 0 < step then i < stop else stop < i) := hc
    rw [sliceLoop, dif_neg h0, dif_pos hc2, if_neg hi] at hl3
    exact absurd hl3 (by simp)
  | case6 i acc h0 hc =>
    intro hinv l3 hl3
    have hc2 : ¬(if 0 < step then i < stop else stop < i) := hc
    rw [sliceLoop, dif_neg h0, dif_neg hc2] at hl3
    simp only [Except.ok.injEq] at hl3
    rw [← hl3]
    exact hinv

theorem removeCpp_inv (l : CppList T) (index : Int) (hinv : Inv l) :
    ∀ l2 x, removeCpp l index = .ok (l2, x) → Inv l2 := by
  intro l2 x h
  obtain ⟨hi1, hi2, hi3⟩ := hinv
  have h1 := removeCpp_capacity l index l2 x h
  have h2 := removeCpp_length l index l2 x h
  exact ⟨by omega, by omega, by omega⟩

theorem subAssign_inv (l : CppList T) (e : T) (hinv : Inv l) :
    Inv (subAssign l e) := by
  obtain ⟨hi1, hi2, hi3⟩ := hinv
  obtain ⟨h1, h2⟩ := subAssign_shape l e
  exact ⟨by omega, by omega, by omega⟩

/-- `slice` with a zero step is rejected up front. -/
theorem sliceCpp_step0 (l : CppList T) (start stop : Int) :
    sliceCpp l start stop 0 = .error .invalidArgument := by
  rw [sliceCpp, if_pos rfl]

/-- `slice` rejects any start outside `[-size, size)` or stop outside
`[-size - 1, size + 1)`. -/
theorem sliceCpp_oob (l : CppList T) (start stop step : Int)
    (hstep : ¬step = 0)
    (h : start < -(l.elems.length : Int) ∨ (l.elems.length : Int) ≤ start
       ∨ stop < -(l.elems.length : Int) - 1
       ∨ (l.elems.length : Int) + 1 ≤ stop) :
    sliceCpp l start stop step = .error .indexOutOfRange := by
  rw [sliceCpp, if_neg hstep]
  simp only [checkBounds, size]
  rcases Decidable.em (start < -(l.elems.length : Int)
      ∨ (l.elems.length : Int) ≤ start) with h1 | h1
  · rw [if_pos h1]
  · rw [if_neg h1]
    have h2 : stop < -(l.elems.length : Int) - 1
        ∨ (l.elems.length : Int) + 1 ≤ stop := by
      rcases h with h | h | h | h
      · exact absurd (Or.inl h) h1
      · exact absurd (Or.inr h) h1
      · exact Or.inl h
      · exact Or.inr h
    rw [if_pos h2]

/-- `slice` succeeds on every argument combination that passes its checks. -/
theorem sliceCpp_ok (l : CppList T) (start stop step : Int)
    (hstep : ¬step = 0) (hmax : l.elems.length ≤ MAX_CAPACITY)
    (hs1 : -(l.elems.length : Int) ≤ start)
    (hs2 : start < (l.elems.length : Int))
    (ht1 : -(l.elems.length : Int) - 1 ≤ stop)
    (ht2 : stop < (l.elems.length : Int) + 1) :
    ∃ l2, sliceCpp l start stop step = .ok l2 := by
  rw [sliceCpp, if_neg hstep]
  simp only [checkBounds, size]
  rw [if_neg (by omega), if_neg (by omega)]
  apply sliceLoop_ok
  · intro hpos
    constructor
    · split <;> omega
    · split <;> omega
  · intro hneg2
    constructor
    · split <;> omega
    · split <;> omega
  · simp only [emptyCpp, List.length_nil, Nat.zero_add]
    rcases Decidable.em (0 < step) with hs | hs
    · rw [if_pos hs]
      split <;> split <;> omega
    · rw [if_neg hs]
      split <;> split <;> omega

/-- `slice(0, size, 1)` copies the whole sequence. -/
theorem sliceCpp_all (l : CppList T) (hne : l.elems.length ≠ 0)
    (hmax : l.elems.length ≤ MAX_CAPACITY) :
    ∃ c, sliceCpp l 0 (l.elems.length : Int) 1 = .ok ⟨l.elems, c⟩ := by
  obtain ⟨c, hc⟩ := appendAll_ok l.elems (emptyCpp T)
    (by simpa [emptyCpp] using hmax)
  refine ⟨c, ?_⟩
  rw [sliceCpp, if_neg (by norm_num)]
  simp only [checkBounds, size]
  rw [if_neg (by omega), if_neg (by omega)]
  show sliceLoop l.elems (l.elems.length : Int) 1 0 (emptyCpp T) = _
  rw [sliceLoop_one l.elems ((l.elems.length : Int) - 0).toNat 0 (emptyCpp T)
    (by norm_num) rfl]
  rw [show Int.toNat 0 = 0 from rfl, List.drop_zero, hc]
  simp [emptyCpp]

/-- Any successful `slice` result satisfies the data-model invariant. -/
theorem sliceCpp_inv (l : CppList T) (start stop step : Int) :
    ∀ l2, sliceCpp l start stop step = .ok l2 → Inv l2 := by
  intro l2 h
  have hempty : Inv (emptyCpp T) := by
    refine ⟨by simp [emptyCpp], ?_, ?_⟩
    · show (4 : Nat) ≤ MAX_CAPACITY
      decide
    · show (0 : Nat) < 4
      decide
  by_cases h0 : step = 0
  · rw [h0, sliceCpp_step0] at h
    exact absurd h (by simp)
  rw [sliceCpp, if_neg h0] at h
  simp only [checkBounds, size] at h
  rcases Decidable.em (start < -(l.elems.length : Int)
      ∨ (l.elems.length : Int) ≤ start) with h1 | h1
  · rw [if_pos h1] at h
    exact absurd h (by simp)
  rw [if_neg h1] at h
  rcases Decidable.em (stop < -(l.elems.length : Int) - 1
      ∨ (l.elems.length : Int) + 1 ≤ stop) with h2 | h2
  · rw [if_pos h2] at h
    exact absurd h (by simp)
  rw [if_neg h2] at h
  exact sliceLoop_inv l.elems _ step _ (emptyCpp T) hempty l2 h

/-!  Remaining auxiliary lemmas for the claims. -/

/-- The implementation `find` agrees with the spec-side scan whenever the
start position is non-negative. -/
theorem findCpp_eq_spec (l : CppList T) (e : T) (start stop : Int)
    (h : 0 ≤ start) :
    findCpp l e start stop = some (findSpec l e start stop) := by
  rw [findCpp, findSpec]
  have hstop : (if stop > (l.size : Int) then (l.size : Int) else stop)
      = min stop (l.size : Int) := by
    split <;> omega
  rw [hstop]
  rw [findLoop_nonneg l.elems e (min stop (l.size : Int) - start).toNat start h
    (by simp only [size]; omega)]

/-- `contains` is `find ≠ -1`, on the spec-side value, for a non-negative
start. -/
theorem containsCpp_eq_spec (l : CppList T) (e : T) (start stop : Int)
    (h : 0 ≤ start) :
    containsCpp l e start stop
      = some (decide ¬findSpec l e start stop = -1) := by
  rw [containsCpp, findCpp_eq_spec l e start stop h]

/-- `find` with default arguments on an empty container: not found, no
error. -/
theorem findDefault_empty (l : CppList T) (e : T) (hl : l.elems = []) :
    findDefault l e = some (-1) := by
  rw [findDefault, findCpp_eq_spec l e 0 _ (by omega), findSpec]
  have hsz : (l.size : Int) = 0 := by
    simp [size, hl]
  rw [hsz]
  have h0 : (min ((MAX_CAPACITY : Int) + 1) 0 - 0).toNat = 0 := by
    decide
  rw [h0, findFromN]

/-- The data-model invariant holds for a fresh empty container. -/
theorem inv_empty : Inv (emptyCpp T) := by
  refine ⟨by simp [emptyCpp], ?_, ?_⟩
  · show (4 : Nat) ≤ MAX_CAPACITY
    decide
  · show (0 : Nat) < 4
    decide

theorem mulLoop_inv : ∀ (k : Nat) (l acc : CppList T), Inv acc →
    ∀ l2, mulLoop l k acc = .ok l2 → Inv l2 := by
  intro k
  induction k with
  | zero =>
    intro l acc hinv l2 h
    rw [mulLoop] at h
    simp only [Except.ok.injEq] at h
    rw [← h]
    exact hinv
  | succ k ih =>
    intro l acc hinv l2 h
    rw [mulLoop, concatAssign_not_aliased] at h
    rcases happ : appendAll acc l.elems with er | acc2
    · rw [happ] at h
      exact absurd h (by simp)
    · rw [happ] at h
      exact ih l acc2 (appendAll_inv l.elems acc hinv acc2 happ) l2 h

/-- The flattening of `k` copies has `k` times the length. -/
theorem join_replicate_length (k : Nat) (xs : List T) :
    ((List.replicate k xs).join).length = k * xs.length := by
  induction k with
  | zero => simp
  | succ k ih =>
    rw [List.replicate_succ]
    simp only [List.join_cons, List.length_append, ih]
    ring

/-- `sort` preserves the length (it permutes the elements). -/
theorem sortList_length (cmp : T → T → Bool) (l : List T) :
    (sortList cmp l).length = l.length :=
  (sortList_perm cmp l).length_eq

/-!  The claims. -/

/-- C1 (amended): for every list whose doubled length still fits below
`MAX_CAPACITY`, self-concatenation `c += c` succeeds and leaves `c` with
twice its length, the first half and the second half both equal to the
pre-call contents — the by-value snapshot makes the aliased append read the
pre-call sequence even while the storage grows.  (The unamended claim, for
every list, fails: see the counterexample.) -/
theorem claim_c1 (l : CppList T) (h : 2 * l.elems.length ≤ MAX_CAPACITY) :
    (concatAssign l l true).isOk = true ∧
    ∀ l2, concatAssign l l true = .ok l2 →
      l2.elems.length = 2 * l.elems.length ∧
      l2.elems.take l.elems.length = l.elems ∧
      l2.elems.drop l.elems.length = l.elems := by
  have hconcat : concatAssign l l true = appendAll l l.elems := rfl
  obtain ⟨c, hc⟩ := appendAll_ok l.elems l (by omega)
  constructor
  · rw [hconcat, hc]
    rfl
  · intro l2 h2
    rw [hconcat, hc] at h2
    simp only [Except.ok.injEq] at h2
    rw [← h2]
    refine ⟨?_, ?_, ?_⟩
    · show (l.elems ++ l.elems).length = _
      simp only [List.length_append]
      omega
    · exact List.take_left l.elems l.elems
    · exact List.drop_left l.elems l.elems

/-- C1 counterexample: on a container state of 2^30 elements with capacity
2^30 (the state the sequence constructor yields for that input; 2^30 is
below `MAX_CAPACITY`), `c += c` fails with CapacityExceeded once the size
hits `MAX_CAPACITY`, refuting the claim that self-concatenation succeeds
for every list. -/
theorem claim_c1_counterexample :
    concatAssign
      (⟨List.replicate 1073741824 (0 : Nat), 1073741824⟩ : CppList Nat)
      ⟨List.replicate 1073741824 (0 : Nat), 1073741824⟩ true
      = .error .capacityExceeded := by
  rw [concatAssign]
  simp only [if_true]
  refine appendAll_err _ _ ?_ ?_
  · rw [List.length_replicate]
    decide
  · rw [List.length_replicate]
    decide

/-- C1 witness at a small concrete list. -/
theorem claim_c1_witness :
    (concatAssign (fromList ([1, 2] : List Nat)) (fromList [1, 2]) true).isOk
      = true ∧
    ([1, 2, 1, 2] : List Nat).length = 2 * (fromList ([1, 2] : List Nat)).elems.length := by
  have h := claim_c1 (fromList ([1, 2] : List Nat)) (by decide)
  refine ⟨h.1, ?_⟩
  have h2 := (h.2 ⟨[1, 2, 1, 2], 4⟩ (by rfl)).1
  exact h2

/-- C2: inserting into a list at full capacity (`length == capacity`, below
`MAX_CAPACITY`) succeeds after exactly one expansion, the new capacity is
`min(2 * capacity, MAX_CAPACITY)` — with `MAX_CAPACITY = INT_MAX - 1` — and
the elements are the prior ones with the new element placed at the resolved
index; and no other operation expands the capacity: insertion below
capacity, removal, reversal, sorting, uniquify and remove-by-value keep the
capacity, and `clear` either is a no-op or resets to `INIT_CAPACITY`. -/
theorem claim_c2 (l : CppList T) (index : Int) (e : T) (cmp : T → T → Bool)
    (hfc : l.elems.length = l.capacity) (hlt : l.capacity < MAX_CAPACITY)
    (hlo : -(l.elems.length : Int) ≤ index)
    (hhi : index ≤ (l.elems.length : Int)) :
    insertCpp l index e = .ok
      ⟨l.elems.take (if 0 ≤ index then index
          else index + (l.elems.length : Int)).toNat
        ++ e :: l.elems.drop (if 0 ≤ index then index
          else index + (l.elems.length : Int)).toNat,
       min (2 * l.capacity) MAX_CAPACITY⟩
    ∧ MAX_CAPACITY = INT_MAX - 1
    ∧ (∀ (l2 : CppList T) (j : Int) (e2 : T) (l3 : CppList T),
        l2.elems.length < l2.capacity → insertCpp l2 j e2 = .ok l3 →
        l3.capacity = l2.capacity)
    ∧ (∀ (l2 : CppList T) (j : Int) (l3 : CppList T) (x : T),
        removeCpp l2 j = .ok (l3, x) → l3.capacity = l2.capacity)
    ∧ (∀ l2 : CppList T, (reverseCpp l2).capacity = l2.capacity)
    ∧ (∀ l2 : CppList T, (sortCpp l2 cmp).capacity = l2.capacity)
    ∧ (∀ l2 : CppList T, (uniquifyCpp l2).capacity = l2.capacity)
    ∧ (∀ (l2 : CppList T) (e2 : T), (subAssign l2 e2).capacity = l2.capacity)
    ∧ (∀ l2 : CppList T, clearCpp l2 = l2
        ∨ (clearCpp l2).capacity = INIT_CAPACITY) := by
  refine ⟨?_, rfl, ?_, ?_, fun l2 => rfl, fun l2 => rfl,
    fun l2 => (uniquifyLoop_shape l2 0).1,
    fun l2 e2 => (subAssign_shape l2 e2).1, ?_⟩
  · rw [insertCpp_ok l index e (by omega) hlo (by omega), if_pos hfc,
      expandCapacity_eq]
  · intro l2 j e2 l3 hlt2 h2
    by_cases hfull : l2.elems.length = MAX_CAPACITY
    · rw [insertCpp_full l2 j e2 hfull] at h2
      exact absurd h2 (by simp)
    by_cases hb : j < -(l2.elems.length : Int)
        ∨ (l2.elems.length : Int) + 1 ≤ j
    · rw [insertCpp_oob l2 j e2 hfull hb] at h2
      exact absurd h2 (by simp)
    push_neg at hb
    rw [insertCpp_ok l2 j e2 hfull hb.1 (by omega)] at h2
    simp only [Except.ok.injEq] at h2
    rw [← h2]
    show (if l2.elems.length = l2.capacity then expandCapacity l2.capacity
      else l2.capacity) = l2.capacity
    rw [if_neg (by omega)]
  · exact fun l2 j l3 x h2 => removeCpp_capacity l2 j l3 x h2
  · intro l2
    rcases Decidable.em (l2.size ≠ 0) with h2 | h2
    · right
      rw [clearCpp, if_pos h2]
    · left
      rw [clearCpp, if_neg h2]

/-- C2 witness: a size-4, capacity-4 list expands to capacity 8 on insert. -/
theorem claim_c2_witness :
    insertCpp (fromList ([1, 2, 3, 4] : List Nat)) 2 9
      = .ok ⟨[1, 2, 9, 3, 4], 8⟩ := by
  have h := (claim_c2 (fromList ([1, 2, 3, 4] : List Nat)) 2 9
    (fun a b => decide (a < b)) (by decide) (by decide) (by decide)
    (by decide)).1
  rw [h]
  rfl

/-- C10: self-assignment, both copy and move, is guarded by the
`this == &that` test and leaves the container unchanged. -/
theorem claim_c10 (l : CppList T) :
    assignCopy l l true = l ∧ assignMove l l true = (l, l) :=
  ⟨rfl, rfl⟩

/-- C10 witness at a concrete list. -/
theorem claim_c10_witness :
    assignCopy (fromList ([1, 2] : List Nat)) (fromList [1, 2]) true
      = fromList [1, 2] ∧
    assignMove (fromList ([1, 2] : List Nat)) (fromList [1, 2]) true
      = (fromList [1, 2], fromList [1, 2]) :=
  claim_c10 (fromList [1, 2])

/-- C3 (amended): `uniquify()` leaves every distinct value exactly once, in
the order of LAST occurrence (the loop removes first occurrences via
remove-by-value): the result is exactly `List.dedup` of the elements, the
set of values is unchanged, and so is the capacity.  (The unamended
first-seen-order claim fails: see the counterexample.) -/
theorem claim_c3 (l : CppList T) (hmax : l.elems.length ≤ MAX_CAPACITY) :
    uniquifyCpp l = ⟨l.elems.dedup, l.capacity⟩ ∧
    (uniquifyCpp l).elems.Nodup ∧
    (∀ x, x ∈ (uniquifyCpp l).elems ↔ x ∈ l.elems) := by
  have h := uniquifyCpp_eq l hmax
  refine ⟨h, ?_, ?_⟩
  · rw [h]
    exact List.nodup_dedup l.elems
  · intro x
    rw [h]
    exact List.mem_dedup

/-- C3 counterexample: `[1, 2, 1]` uniquifies to `[2, 1]`, not to the
first-seen order `[1, 2]` the claim asserts. -/
theorem claim_c3_counterexample :
    uniquifyCpp (fromList ([1, 2, 1] : List Nat)) = ⟨[2, 1], 4⟩ ∧
    ([2, 1] : List Nat) ≠ [1, 2] := by
  constructor
  · rw [uniquifyCpp_eq (fromList ([1, 2, 1] : List Nat)) (by decide)]
    rfl
  · decide

/-- C3 witness: the spec scenario `[5, 3, 3, 1, 4] → [5, 3, 1, 4]` does
hold (here first-seen and last-seen order coincide). -/
theorem claim_c3_witness :
    uniquifyCpp (fromList ([5, 3, 3, 1, 4] : List Nat)) = ⟨[5, 3, 1, 4], 5⟩ := by
  have h := (claim_c3 (fromList ([5, 3, 3, 1, 4] : List Nat)) (by decide)).1
  rw [h]
  rfl

/-- C4 (amended): `clear()` on a nonempty list resets the length to 0 and
the capacity to `INIT_CAPACITY`; on an already-empty list it does nothing
(in particular the capacity is retained); and `remove` never shrinks the
capacity.  (The unamended claim — reset for every list — fails: see the
counterexample.) -/
theorem claim_c4 (l : CppList T) :
    (l.elems ≠ [] → clearCpp l = ⟨[], INIT_CAPACITY⟩) ∧
    (l.elems = [] → clearCpp l = l) ∧
    (∀ (j : Int) (l2 : CppList T) (x : T), removeCpp l j = .ok (l2, x) →
      l2.capacity = l.capacity) := by
  refine ⟨?_, ?_, fun j l2 x h => removeCpp_capacity l j l2 x h⟩
  · intro h
    rw [clearCpp, if_pos (by rw [size, Ne, List.length_eq_zero]; exact h)]
  · intro h
    rw [clearCpp, if_neg (by simp [size, h])]

/-- C4 counterexample: build five elements (capacity 5), remove them all
one by one, then `clear()`: the capacity stays 5, not the initial default
4, because `clear` skips its body on an empty list. -/
theorem claim_c4_counterexample :
    (do
      let p1 ← removeCpp (fromList ([1, 2, 3, 4, 5] : List Nat)) 0
      let p2 ← removeCpp p1.1 0
      let p3 ← removeCpp p2.1 0
      let p4 ← removeCpp p3.1 0
      let p5 ← removeCpp p4.1 0
      pure (clearCpp p5.1)) = .ok (⟨[], 5⟩ : CppList Nat) ∧
    (5 : Nat) ≠ INIT_CAPACITY := by
  constructor
  · rfl
  · decide

/-- C4 witness: `clear` on a nonempty list does reset the capacity. -/
theorem claim_c4_witness :
    clearCpp (fromList ([1, 2, 3, 4, 5] : List Nat)) = ⟨[], INIT_CAPACITY⟩ :=
  (claim_c4 (fromList ([1, 2, 3, 4, 5] : List Nat))).1 (by decide)

/-- C5 (amended): for every nonempty list, `slice(0, length, 1)` succeeds
and equals the receiver by value; `slice` accepts exactly the starts
resolving within `[-length, length)` and stops within
`[-length - 1, length + 1)` (one unit tighter on the upper ends than the
claim), and a zero step fails with InvalidArgument.  (The unamended claim
fails on the empty list: see the counterexample.) -/
theorem claim_c5 (l : CppList T) (hne : l.elems ≠ [])
    (hmax : l.elems.length ≤ MAX_CAPACITY) :
    (∃ l2, sliceCpp l 0 (l.elems.length : Int) 1 = .ok l2
      ∧ eqCpp l2 l = true) ∧
    (∀ start stop step : Int, ¬step = 0 →
      ((sliceCpp l start stop step).isOk = true ↔
        (-(l.elems.length : Int) ≤ start ∧ start < (l.elems.length : Int) ∧
         -(l.elems.length : Int) - 1 ≤ stop ∧
         stop < (l.elems.length : Int) + 1))) ∧
    (∀ start stop : Int, sliceCpp l start stop 0 = .error .invalidArgument) := by
  refine ⟨?_, ?_, fun s t => sliceCpp_step0 l s t⟩
  · obtain ⟨c, hc⟩ := sliceCpp_all l
      (by rw [Ne, List.length_eq_zero]; exact hne) hmax
    refine ⟨⟨l.elems, c⟩, hc, ?_⟩
    simp [eqCpp, size]
  · intro start stop step hstep
    constructor
    · intro hok
      by_contra hcon
      have hoob : start < -(l.elems.length : Int)
          ∨ (l.elems.length : Int) ≤ start
          ∨ stop < -(l.elems.length : Int) - 1
          ∨ (l.elems.length : Int) + 1 ≤ stop := by
        omega
      rw [sliceCpp_oob l start stop step hstep hoob] at hok
      exact Bool.noConfusion hok
    · intro hb
      obtain ⟨l2, hl2⟩ := sliceCpp_ok l start stop step hstep hmax
        hb.1 hb.2.1 hb.2.2.1 hb.2.2.2
      rw [hl2]
      rfl

/-- C5 counterexample: on the empty container, `slice(0, length, 1)` =
`slice(0, 0, 1)` fails with IndexOutOfRange (the start bound check is
upper-exclusive), refuting the claim that it succeeds for every list. -/
theorem claim_c5_counterexample :
    sliceCpp (emptyCpp Nat) 0 0 1 = .error .indexOutOfRange := by
  rfl

/-- C5 witness: the full slice succeeds on `[10, 20, 30, 40, 50]`, and the
spec's scenario arguments `(-4, -1, 2)` are accepted. -/
theorem claim_c5_witness :
    (sliceCpp (fromList ([10, 20, 30, 40, 50] : List Nat)) 0
      ((fromList ([10, 20, 30, 40, 50] : List Nat)).elems.length : Int)
      1).isOk = true ∧
    (sliceCpp (fromList ([10, 20, 30, 40, 50] : List Nat)) (-4) (-1) 2).isOk
      = true := by
  have h := claim_c5 (fromList ([10, 20, 30, 40, 50] : List Nat))
    (by decide) (by decide)
  constructor
  · obtain ⟨l2, h1, h2⟩ := h.1
    rw [h1]
    rfl
  · exact (h.2.1 (-4) (-1) 2 (by decide)).mpr (by decide)

/-- C6 (amended): for a NON-NEGATIVE start, `find` clamps `stop` to the
length, scans only valid positions, never errors, and returns the first
match or -1 (the spec-side scan `findSpec`); `contains` is `find ≠ -1`; on
an empty list the default search returns -1.  (The unamended claim — for
every integer start — fails: a negative start makes the loop read storage
below index 0, see the counterexample.) -/
theorem claim_c6 (l : CppList T) (e : T) (start stop : Int) (h : 0 ≤ start) :
    findCpp l e start stop = some (findSpec l e start stop) ∧
    containsCpp l e start stop
      = some (decide ¬findSpec l e start stop = -1) ∧
    (l.elems = [] → findDefault l e = some (-1)) :=
  ⟨findCpp_eq_spec l e start stop h, containsCpp_eq_spec l e start stop h,
    fun hl => findDefault_empty l e hl⟩

/-- C6 counterexample: `find(7, -1, 1)` on `[7]` reads `data_[-1]` —
storage outside `[0, length)`, modelled as `none` — instead of returning a
position or -1. -/
theorem claim_c6_counterexample :
    findCpp (fromList ([7] : List Nat)) 7 (-1) 1 = none ∧
    containsCpp (fromList ([7] : List Nat)) 7 (-1) 1 = none := by
  exact ⟨rfl, rfl⟩

/-- C6 witness: empty-list search and a concrete in-range search. -/
theorem claim_c6_witness :
    findDefault (emptyCpp Nat) 99 = some (-1) ∧
    findCpp (fromList ([7, 8, 7] : List Nat)) 7 1 99
      = some (findSpec (fromList ([7, 8, 7] : List Nat)) 7 1 99) := by
  have h1 := claim_c6 (emptyCpp Nat) 99 0 0 (by decide)
  have h2 := claim_c6 (fromList ([7, 8, 7] : List Nat)) 7 1 99 (by decide)
  exact ⟨h1.2.2 rfl, h2.1⟩

/-- C7 (amended): `operator*=` fails with InvalidArgument exactly for
`times < 0` (before any mutation); for `times ≥ 0` whose total
`times * length` still fits in `MAX_CAPACITY` it succeeds with the contents
repeated `times` times; for a total beyond `MAX_CAPACITY` it fails with
CapacityExceeded (this is where the unamended "succeeds for every
times ≥ 0" fails, see the counterexample); `repeat(0)` yields a fresh
empty container. -/
theorem claim_c7 (l : CppList T) (times : Int) :
    (times < 0 → mulAssign l times = .error .invalidArgument) ∧
    (0 ≤ times → times.toNat * l.elems.length ≤ MAX_CAPACITY →
      (mulAssign l times).isOk = true ∧
      ∀ l2, mulAssign l times = .ok l2 →
        l2.elems = (List.replicate times.toNat l.elems).join ∧
        l2.elems.length = times.toNat * l.elems.length) ∧
    (0 ≤ times → MAX_CAPACITY < times.toNat * l.elems.length →
      mulAssign l times = .error .capacityExceeded) ∧
    mulAssign l 0 = .ok ⟨[], INIT_CAPACITY⟩ := by
  refine ⟨fun h => mulAssign_neg l times h, ?_,
    fun h1 h2 => mulAssign_overflow l times h1 h2, rfl⟩
  intro h1 h2
  obtain ⟨c, hc⟩ := mulAssign_ok l times h1 h2
  constructor
  · rw [hc]
    rfl
  · intro l2 hl2
    rw [hc] at hl2
    simp only [Except.ok.injEq] at hl2
    rw [← hl2]
    refine ⟨rfl, ?_⟩
    show ((List.replicate times.toNat l.elems).join).length = _
    rw [join_replicate_length]

/-- C7 counterexample: `repeat(INT_MAX)` on a one-element list is a
non-negative count, yet fails with CapacityExceeded instead of succeeding
as the claim asserts. -/
theorem claim_c7_counterexample :
    mulAssign (fromList ([0] : List Nat)) 2147483647
      = .error .capacityExceeded := by
  apply mulAssign_overflow
  · decide
  · show MAX_CAPACITY
      < (2147483647 : Int).toNat * (fromList ([0] : List Nat)).elems.length
    decide

/-- C7 witness at small concrete arguments. -/
theorem claim_c7_witness :
    (mulAssign (fromList ([1, 2] : List Nat)) 3).isOk = true ∧
    mulAssign (fromList ([1, 2] : List Nat)) (-1)
      = .error .invalidArgument ∧
    mulAssign (fromList ([1, 2] : List Nat)) 0 = .ok ⟨[], INIT_CAPACITY⟩ := by
  have h := claim_c7 (fromList ([1, 2] : List Nat)) 3
  have h2 := claim_c7 (fromList ([1, 2] : List Nat)) (-1)
  exact ⟨(h.2.1 (by decide) (by decide)).1, h2.1 (by decide), h.2.2.2⟩

/-- C8: for every comparator that is a strict weak order ("comparator(a, b)
true iff a must precede b": asymmetric, with transitive incomparability),
`sort` permutes the elements into a sequence where no later element must
precede an earlier one, is stable (the sublist of every
comparator-equivalence class is untouched), and keeps the capacity.  The
default comparator (`<` of the element type) satisfies the hypotheses, as
the witness instantiates. -/
theorem claim_c8 (l : CppList T) (cmp : T → T → Bool)
    (hasymm : ∀ a b, cmp a b = true → cmp b a = false)
    (hneg : ∀ a b c, cmp a b = false → cmp b c = false → cmp a c = false) :
    ((sortCpp l cmp).elems).Perm l.elems ∧
    List.Pairwise (fun a b => cmp b a = false) (sortCpp l cmp).elems ∧
    (∀ x, (sortCpp l cmp).elems.filter (equivCmp cmp x)
       = l.elems.filter (equivCmp cmp x)) ∧
    (sortCpp l cmp).capacity = l.capacity :=
  ⟨sortList_perm cmp l.elems, sortList_pairwise cmp hasymm hneg l.elems,
    fun x => sortList_stable cmp hneg x l.elems, rfl⟩

/-- C8 witness: the default ascending comparator on a concrete list with a
duplicated key. -/
theorem claim_c8_witness :
    ((sortCpp (⟨[2, 0, 2, 1], 4⟩ : CppList (Fin 3))
        (fun a b => decide (a < b))).elems).Perm [2, 0, 2, 1] ∧
    List.Pairwise (fun a b => (fun a b : Fin 3 => decide (a < b)) b a = false)
      (sortCpp (⟨[2, 0, 2, 1], 4⟩ : CppList (Fin 3))
        (fun a b => decide (a < b))).elems ∧
    (∀ x, (sortCpp (⟨[2, 0, 2, 1], 4⟩ : CppList (Fin 3))
        (fun a b => decide (a < b))).elems.filter
          (equivCmp (fun a b => decide (a < b)) x)
      = ([2, 0, 2, 1] : List (Fin 3)).filter
          (equivCmp (fun a b => decide (a < b)) x)) ∧
    (sortCpp (⟨[2, 0, 2, 1], 4⟩ : CppList (Fin 3))
        (fun a b => decide (a < b))).capacity = 4 :=
  claim_c8 ⟨[2, 0, 2, 1], 4⟩ (fun a b => decide (a < b))
    (by decide) (by decide)

/-- C9: every operation of the container preserves the invariant
`length ≤ capacity ≤ MAX_CAPACITY` with a positive capacity
(`0 ≤ length` holds by construction): construction (empty and from a
sequence of at most `MAX_CAPACITY` elements), copy, move, both assignments,
swap, insert, remove, append, concatenate, repeat, clear, reverse,
uniquify, sort, slice and remove-by-value. -/
theorem claim_c9 (l other : CppList T) (cmp : T → T → Bool) (e : T)
    (hinv : Inv l) (hinv2 : Inv other) :
    Inv (emptyCpp T) ∧
    (∀ il : List T, il.length ≤ MAX_CAPACITY → Inv (fromList il)) ∧
    Inv (copyCtor l) ∧
    Inv (moveCtor l).1 ∧
    Inv (moveCtor l).2 ∧
    (∀ sameObj, Inv (assignCopy l other sameObj)) ∧
    (∀ sameObj, Inv (assignMove l other sameObj).1
      ∧ Inv (assignMove l other sameObj).2) ∧
    Inv (swapCpp l other).1 ∧
    Inv (swapCpp l other).2 ∧
    (∀ (j : Int) (e2 : T) l2, insertCpp l j e2 = .ok l2 → Inv l2) ∧
    (∀ (j : Int) l2 x, removeCpp l j = .ok (l2, x) → Inv l2) ∧
    (∀ l2, appendElem l e = .ok l2 → Inv l2) ∧
    (∀ aliased l2, concatAssign l other aliased = .ok l2 → Inv l2) ∧
    (∀ (t : Int) l2, mulAssign l t = .ok l2 → Inv l2) ∧
    Inv (clearCpp l) ∧
    Inv (reverseCpp l) ∧
    Inv (uniquifyCpp l) ∧
    Inv (sortCpp l cmp) ∧
    (∀ start stop step l2, sliceCpp l start stop step = .ok l2 → Inv l2) ∧
    Inv (subAssign l e) := by
  have hM4 : (4 : Nat) ≤ MAX_CAPACITY := by decide
  have hI0 : (0 : Nat) < INIT_CAPACITY := by decide
  have hIM : INIT_CAPACITY ≤ MAX_CAPACITY := by decide
  obtain ⟨hi1, hi2, hi3⟩ := hinv
  obtain ⟨ho1, ho2, ho3⟩ := hinv2
  refine ⟨inv_empty, ?_, ⟨hi1, hi2, hi3⟩, ⟨hi1, hi2, hi3⟩, inv_empty,
    ?_, ?_, ⟨ho1, ho2, ho3⟩, ⟨hi1, hi2, hi3⟩,
    fun j e2 l2 h => insertCpp_inv l j e2 ⟨hi1, hi2, hi3⟩ l2 h,
    fun j l2 x h => removeCpp_inv l j ⟨hi1, hi2, hi3⟩ l2 x h,
    fun l2 h => insertCpp_inv l _ e ⟨hi1, hi2, hi3⟩ l2 h,
    ?_, ?_, ?_, ?_, ?_, ?_, ?_,
    subAssign_inv l e ⟨hi1, hi2, hi3⟩⟩
  · intro il hle
    rw [fromList]
    split <;> rename_i hc
    · refine ⟨le_refl _, hle, ?_⟩
      show 0 < il.length
      omega
    · refine ⟨?_, hIM, hI0⟩
      show il.length ≤ INIT_CAPACITY
      omega
  · intro sameObj
    cases sameObj
    · exact ⟨ho1, ho2, ho3⟩
    · exact ⟨hi1, hi2, hi3⟩
  · intro sameObj
    cases sameObj
    · exact ⟨⟨ho1, ho2, ho3⟩, inv_empty⟩
    · exact ⟨⟨hi1, hi2, hi3⟩, ⟨hi1, hi2, hi3⟩⟩
  · intro aliased l2 h
    cases aliased
    · exact appendAll_inv other.elems l ⟨hi1, hi2, hi3⟩ l2 h
    · exact appendAll_inv l.elems l ⟨hi1, hi2, hi3⟩ l2 h
  · intro t l2 h
    rw [mulAssign] at h
    split at h
    · exact absurd h (by simp)
    · rcases hml : mulLoop l t.toNat (emptyCpp T) with er | acc
      · rw [hml] at h
        exact absurd h (by simp)
      · rw [hml] at h
        simp only [Except.ok.injEq] at h
        rw [← h]
        exact mulLoop_inv t.toNat l (emptyCpp T) inv_empty acc hml
  · rw [clearCpp]
    split
    · exact ⟨by simp, hIM, hI0⟩
    · exact ⟨hi1, hi2, hi3⟩
  · exact ⟨by simpa [reverseCpp] using hi1, hi2, hi3⟩
  · obtain ⟨h1, h2⟩ := uniquifyLoop_shape l 0
    exact ⟨by rw [uniquifyCpp] at *; omega, by rw [uniquifyCpp] at *; omega,
      by rw [uniquifyCpp] at *; omega⟩
  · refine ⟨?_, hi2, hi3⟩
    show (sortList cmp l.elems).length ≤ l.capacity
    rw [sortList_length]
    exact hi1
  · exact fun start stop step l2 h => sliceCpp_inv l start stop step l2 h

/-- C9 witness: the invariant after an expanding insert on a concrete
full-capacity list. -/
theorem claim_c9_witness : Inv (⟨[1, 2, 9, 3, 4], 8⟩ : CppList Nat) := by
  have h := claim_c9 (fromList ([1, 2, 3, 4] : List Nat)) (fromList [9])
    (fun a b => decide (a < b)) 0 (by decide) (by decide)
  have hins := h.2.2.2.2.2.2.2.2.2.1
  exact hins 2 9 ⟨[1, 2, 9, 3, 4], 8⟩ (by rfl)

end CppList
